import Mathlib

/-!
Shallow embedding of the moka test-report / coverage-report engine
(TypeScript sources: `src/cli/utils/testsTree.ts`, `src/cli/utils/coverage.ts`,
`src/cli/commands/test.ts`, `src/cli/commands/coverage.ts`) and proofs about it.

Conventions of the embedding:
* JS numbers that the program only ever uses as integers (counts, line
  numbers, coverage counters, exit codes, milliseconds) are modelled as `Int`
  or `Nat`; the fractional `time` attribute of a JUnit test case is modelled
  as `ℚ` and `Math.round` as Mathlib's `round` (both round half-up).
* A JS `Map` is modelled as an insertion-ordered list; in both trees every
  map key equals the `name` field of the stored node, so the key is dropped.
* `Array.prototype.sort(cmp)` is modelled by a stable insertion sort
  `sortWith`.
* `String.prototype.localeCompare` (default locale, ICU root collation) is
  modelled for ASCII strings: primary comparison of the lowercased code
  points, with the case pattern (lowercase before uppercase) as tie-break.
* String comparisons are carried out on `List Nat` keys (code points) so
  that concrete instances reduce in the kernel.
-/

/- ### Generic helpers: code-point comparison and stable sorting -/

/-- Strict lexicographic comparison of code-point lists. Applied to
`strKey`, this is the code-unit order that JS `<` on strings uses. -/
def listLtN : List Nat → List Nat → Bool
  | [], [] => false
  | [], _ :: _ => true
  | _ :: _, [] => false
  | a :: as, b :: bs =>
    if a < b then true
    else if b < a then false
    else listLtN as bs

theorem listLtN_asymm : ∀ a b : List Nat,
    listLtN a b = true → listLtN b a = false := by
  intro a
  induction a with
  | nil =>
    intro b h
    cases b with
    | nil => simp [listLtN] at h
    | cons y ys => simp [listLtN]
  | cons x xs ih =>
    intro b h
    cases b with
    | nil => simp [listLtN] at h
    | cons y ys =>
      simp only [listLtN] at h ⊢
      by_cases h1 : x < y
      · have h2 : ¬ y < x := by omega
        simp [h1, h2]
      · by_cases h2 : y < x
        · simp [h1, h2] at h
        · simp only [h1, h2, if_false] at h ⊢
          exact ih ys h

theorem listLtN_connex : ∀ a b : List Nat,
    a ≠ b → listLtN a b = true ∨ listLtN b a = true := by
  intro a
  induction a with
  | nil =>
    intro b h
    cases b with
    | nil => exact absurd rfl h
    | cons y ys => left; simp [listLtN]
  | cons x xs ih =>
    intro b h
    cases b with
    | nil => right; simp [listLtN]
    | cons y ys =>
      simp only [listLtN]
      by_cases h1 : x < y
      · left; simp [h1]
      · by_cases h2 : y < x
        · right; simp [h1, h2]
        · have hxy : x = y := by omega
          subst hxy
          have hne : xs ≠ ys := fun hh => h (by rw [hh])
          have h3 : ¬ x < x := by omega
          rcases ih ys hne with hl | hr
          · left; simp [h3, hl]
          · right; simp [h3, hr]

/-- Stable insertion sort, modelling `Array.prototype.sort` with a `≤`-style
boolean comparator (`le a b` means the comparator returned a value `≤ 0`). -/
def insertLe (le : α → α → Bool) (x : α) : List α → List α
  | [] => [x]
  | y :: ys => if le x y then x :: y :: ys else y :: insertLe le x ys

def sortWith (le : α → α → Bool) : List α → List α
  | [] => []
  | x :: xs => insertLe le x (sortWith le xs)

theorem insertLe_perm (le : α → α → Bool) (x : α) :
    ∀ l : List α, (insertLe le x l).Perm (x :: l) := by
  intro l
  induction l with
  | nil => simp [insertLe]
  | cons y ys ih =>
    simp only [insertLe]
    by_cases h : le x y = true
    · simp [h]
    · simp only [Bool.not_eq_true] at h
      simp only [h, Bool.false_eq_true, if_false]
      exact (ih.cons y).trans (List.Perm.swap x y ys)

theorem sortWith_perm (le : α → α → Bool) :
    ∀ l : List α, (sortWith le l).Perm l := by
  intro l
  induction l with
  | nil => simp [sortWith]
  | cons x xs ih =>
    exact (insertLe_perm le x (sortWith le xs)).trans (ih.cons x)

theorem mem_sortWith (le : α → α → Bool) {x : α} {l : List α} :
    x ∈ sortWith le l ↔ x ∈ l :=
  (sortWith_perm le l).mem_iff

/-- Adjacent-pairs sortedness for a boolean comparator. -/
def pairSortedB (le : α → α → Bool) : List α → Bool
  | [] => true
  | [_] => true
  | x :: y :: rest => le x y && pairSortedB le (y :: rest)

/-- Strictly ascending list of integers (each element greater than the
previous) — the shape the spec requires of `compressLines` inputs and
guarantees of `uncoveredLines`. -/
def ascB (l : List Int) : Bool := pairSortedB (fun a b => decide (a < b)) l

/-- Non-strictly ascending list of integers. -/
def sortedLeB (l : List Int) : Bool := pairSortedB (fun a b => decide (a ≤ b)) l

theorem insertLe_sorted (le : α → α → Bool)
    (total : ∀ a b, le a b = true ∨ le b a = true) (x : α) :
    ∀ l, pairSortedB le l = true → pairSortedB le (insertLe le x l) = true := by
  intro l
  induction l with
  | nil => intro _; simp [insertLe, pairSortedB]
  | cons y ys ih =>
    intro hs
    simp only [insertLe]
    by_cases h : le x y = true
    · rw [if_pos h]
      simp only [pairSortedB, Bool.and_eq_true]
      exact ⟨h, hs⟩
    · have hyx : le y x = true := (total x y).resolve_left h
      rw [if_neg h]
      cases ys with
      | nil => simp [insertLe, pairSortedB, hyx]
      | cons z zs =>
        simp only [pairSortedB, Bool.and_eq_true] at hs
        have htail := ih hs.2
        simp only [insertLe] at htail ⊢
        by_cases hz : le x z = true
        · rw [if_pos hz] at htail ⊢
          simp only [pairSortedB, Bool.and_eq_true] at htail ⊢
          exact ⟨hyx, htail⟩
        · rw [if_neg hz] at htail ⊢
          simp only [pairSortedB, Bool.and_eq_true] at htail ⊢
          exact ⟨hs.1, htail⟩

theorem sortWith_sorted (le : α → α → Bool)
    (total : ∀ a b, le a b = true ∨ le b a = true) :
    ∀ l, pairSortedB le (sortWith le l) = true := by
  intro l
  induction l with
  | nil => simp [sortWith, pairSortedB]
  | cons x xs ih => exact insertLe_sorted le total x _ ih

theorem sortWith_of_sorted (le : α → α → Bool) :
    ∀ l, pairSortedB le l = true → sortWith le l = l := by
  intro l
  induction l with
  | nil => intro _; rfl
  | cons x xs ih =>
    intro hs
    cases xs with
    | nil => rfl
    | cons y ys =>
      simp only [pairSortedB, Bool.and_eq_true] at hs
      show insertLe le x (sortWith le (y :: ys)) = x :: y :: ys
      rw [ih hs.2]
      show (if le x y = true then x :: y :: ys else y :: insertLe le x ys) = x :: y :: ys
      rw [if_pos hs.1]

/- ### String keys and the localeCompare model -/

/-- Code points of a string. -/
def strKey (s : String) : List Nat := s.data.map Char.toNat

/-- Code points of the lowercased string (primary collation weights of the
ICU root locale, adequate for ASCII names). -/
def lowerKey (s : String) : List Nat := s.data.map (fun c => c.toLower.toNat)

/-- Case pattern of a string: `0` for a lowercase letter, `1` otherwise
(tertiary collation weights: lowercase sorts before uppercase). -/
def caseKey (s : String) : List Nat := s.data.map (fun c => if c.isLower then 0 else 1)

/-- Model of `a.localeCompare(b) <= 0` under the default (ICU root) locale,
restricted to ASCII strings: compare the lowercased strings first and break
ties by the case pattern, lowercase first. -/
def lcLe (a b : String) : Bool :=
  if lowerKey a = lowerKey b then ! listLtN (caseKey b) (caseKey a)
  else listLtN (lowerKey a) (lowerKey b)

theorem lcLe_total : ∀ a b : String, lcLe a b = true ∨ lcLe b a = true := by
  intro a b
  by_cases h : lowerKey a = lowerKey b
  · simp only [lcLe, if_pos h, if_pos h.symm]
    by_cases hc : listLtN (caseKey b) (caseKey a) = true
    · right
      rw [listLtN_asymm _ _ hc]
      rfl
    · left
      simp only [Bool.not_eq_true] at hc
      rw [hc]
      rfl
  · have h' : lowerKey b ≠ lowerKey a := fun hh => h hh.symm
    simp only [lcLe, if_neg h, if_neg h']
    exact listLtN_connex _ _ h

/-- Code-unit (case-sensitive lexical) strict order on strings, the order the
spec's "case-sensitive lexical comparison" denotes. -/
def strLtB (a b : String) : Bool := listLtN (strKey a) (strKey b)

/-- Code-unit `≤`, used to phrase "lexically sorted". -/
def lexLeB (a b : String) : Bool := ! strLtB b a

/- ### Range Compressor (`compressLines`, `coverage.ts` lines 33-48; the
duplicate legacy coverage module carries a textually identical copy). -/

/-- Render one run, `"s"` for a singleton and `"s-e"` for a real range,
exactly as `out.push(s === e ? s : s-e)` does. -/
def runToken (s e : Int) : String :=
  if s = e then toString s else toString s ++ "-" ++ toString e

/-- Loop of `compressLines`: `s`/`e` are the current run's bounds, `out` the
tokens already emitted. -/
def compressGo (out : List String) (s e : Int) : List Int → List String
  | [] => out ++ [runToken s e]
  | v :: vs =>
    if v = e + 1 then compressGo out s v vs
    else compressGo (out ++ [runToken s e]) v v vs

/-- Model of `compressLines` from `coverage.ts`: collapse runs of consecutive
integers into `"start-end"` tokens and join with commas. -/
def compressLines (lines : List Int) : String :=
  match lines with
  | [] => ""
  | x :: rest => String.intercalate "," (compressGo [] x x rest)

/-- Extend a run decomposition by one element on the left: the element joins
the first run when that run starts at `x + 1`, else it opens a new singleton
run. -/
def consRuns (x : Int) (rs : List (List Int)) : List (List Int) :=
  match rs with
  | [] => [[x]]
  | [] :: rest => [x] :: [] :: rest
  | (y :: ys) :: rest =>
    if y = x + 1 then (x :: y :: ys) :: rest else [x] :: (y :: ys) :: rest

/-- Specification-side run decomposition, following the spec's words: split
the list into maximal runs of consecutive integers (each element exactly one
greater than the previous). -/
def splitRuns : List Int → List (List Int)
  | [] => []
  | x :: xs => consRuns x (splitRuns xs)

/-- Render a run by its first and last element. -/
def renderRun : List Int → String
  | [] => ""
  | a :: as => runToken a (((a :: as).getLast?).getD a)

/-- Specification-side compressor: maximal runs, rendered and comma-joined. -/
def specCompress (lines : List Int) : String :=
  String.intercalate "," ((splitRuns lines).map renderRun)

/-- Tokens the loop still has to emit, given the pending run `s..e` and the
decomposition of the remaining input. -/
def extendRuns (s e : Int) (rs : List (List Int)) : List String :=
  match rs with
  | [] => [runToken s e]
  | [] :: rest => runToken s e :: ([] :: rest).map renderRun
  | (y :: ys) :: rest =>
    if y = e + 1 then runToken s (((y :: ys).getLast?).getD s) :: rest.map renderRun
    else runToken s e :: ((y :: ys) :: rest).map renderRun

theorem compressGo_out :
    ∀ (vs : List Int) (s e : Int) (out : List String),
      compressGo out s e vs = out ++ compressGo [] s e vs := by
  intro vs
  induction vs with
  | nil => intro s e out; simp [compressGo]
  | cons v vs ih =>
    intro s e out
    simp only [compressGo]
    by_cases h : v = e + 1
    · rw [if_pos h, if_pos h]
      exact ih s v out
    · rw [if_neg h, if_neg h, ih v v (out ++ [runToken s e]), ih v v ([] ++ [runToken s e])]
      simp

/-- Core lemma: the loop emits exactly the spec's run decomposition, with the
pending run `s..e` merged into the head run when that run continues it. -/
theorem compressGo_spec : ∀ (vs : List Int) (s e : Int),
    compressGo [] s e vs = extendRuns s e (splitRuns vs) := by
  intro vs
  induction vs with
  | nil => intro s e; simp [compressGo, splitRuns, extendRuns]
  | cons v vs ih =>
    intro s e
    simp only [compressGo, splitRuns]
    by_cases hv : v = e + 1
    · subst hv
      rw [if_pos rfl, ih s (e + 1)]
      cases hsr : splitRuns vs with
      | nil => simp [consRuns, extendRuns]
      | cons r rest =>
        cases r with
        | nil => simp [consRuns, extendRuns]
        | cons y ys =>
          by_cases hy : y = e + 1 + 1
          · simp [consRuns, extendRuns, hy, List.getLast?_cons_cons]
          · simp [consRuns, extendRuns, hy]
    · rw [if_neg hv]
      simp only [List.nil_append]
      rw [compressGo_out vs v v [runToken s e], ih v v]
      cases hsr : splitRuns vs with
      | nil => simp [consRuns, extendRuns, hv, renderRun]
      | cons r rest =>
        cases r with
        | nil => simp [consRuns, extendRuns, hv, renderRun]
        | cons y ys =>
          by_cases hy : y = v + 1
          · simp [consRuns, extendRuns, hv, hy, renderRun, List.getLast?_cons_cons]
          · simp [consRuns, extendRuns, hv, hy, renderRun]

theorem compressLines_eq_spec (l : List Int) : compressLines l = specCompress l := by
  cases l with
  | nil => rfl
  | cons x rest =>
    simp only [compressLines, specCompress, splitRuns]
    rw [compressGo_spec rest x x]
    cases hsr : splitRuns rest with
    | nil => simp [consRuns, extendRuns, renderRun]
    | cons r rest' =>
      cases r with
      | nil => simp [consRuns, extendRuns, renderRun]
      | cons y ys =>
        by_cases hy : y = x + 1
        · simp [consRuns, extendRuns, hy, renderRun, List.getLast?_cons_cons]
        · simp [consRuns, extendRuns, hy, renderRun]

/-- C4. `compressLines` renders every maximal run of consecutive integers as
`"start-end"`, isolated integers as themselves, comma-separated and in input
order (proved for every ascending list of distinct integers — in fact the
identity with the run decomposition holds for all inputs), and it maps `[]`
to `""`, `[5]` to `"5"` and `[1,2,3,7,9,10]` to `"1-3,7,9-10"`. -/
theorem compressLines_spec :
    (∀ l : List Int, ascB l = true → compressLines l = specCompress l) ∧
    compressLines [] = "" ∧
    compressLines [5] = "5" ∧
    compressLines [1, 2, 3, 7, 9, 10] = "1-3,7,9-10" := by
  refine ⟨fun l _ => compressLines_eq_spec l, rfl, ?_, ?_⟩
  · decide
  · decide

/-- C4 witness: the general statement applied to the ascending distinct list
`[1,2,3,7,9,10]`. -/
theorem compressLines_spec_witness :
    ascB [1, 2, 3, 7, 9, 10] = true ∧
      compressLines [1, 2, 3, 7, 9, 10] = specCompress [1, 2, 3, 7, 9, 10] :=
  ⟨by decide, compressLines_spec.1 _ (by decide)⟩

/- ### Percentage computation (`pctInt`, `coverage.ts` lines 28-31) -/

/-- Model of `pctInt`: `total === 0 ? 0 : Math.round((covered / total) * 100)`
with `total = covered + missed` inlined. -/
def pctInt (covered missed : Int) : Int :=
  if covered + missed = 0 then 0
  else round ((covered : ℚ) / ((covered + missed : Int) : ℚ) * 100)

/-- C5. The computed percentage is `round(covered / (covered+missed) * 100)`,
is `0` when `covered + missed = 0` (never undefined), is always an integer in
`[0, 100]` for non-negative inputs, and gives `75` at `(3,1)` and `33` at
`(1,2)`. -/
theorem pctInt_spec :
    (∀ c m : Nat, pctInt c m =
      if (c : Int) + (m : Int) = 0 then 0
      else round (((c : Int) : ℚ) / (((c : Int) + (m : Int) : Int) : ℚ) * 100)) ∧
    (∀ c m : Nat, 0 ≤ pctInt c m ∧ pctInt c m ≤ 100) ∧
    pctInt 0 0 = 0 ∧ pctInt 3 1 = 75 ∧ pctInt 1 2 = 33 := by
  refine ⟨fun c m => rfl, fun c m => ?_, by norm_num [pctInt], ?_, ?_⟩
  · by_cases h : (c : Int) + (m : Int) = 0
    · simp [pctInt, h]
    · have h1 : (0 : Int) < (c : Int) + (m : Int) := by omega
      have htot : (0 : ℚ) < (((c : Int) + (m : Int) : Int) : ℚ) := by exact_mod_cast h1
      have hq0 : (0 : ℚ) ≤ ((c : Int) : ℚ) / (((c : Int) + (m : Int) : Int) : ℚ) * 100 := by
        apply mul_nonneg _ (by norm_num)
        apply div_nonneg _ (le_of_lt htot)
        push_cast
        positivity
      have hq1 : ((c : Int) : ℚ) / (((c : Int) + (m : Int) : Int) : ℚ) * 100 ≤ 100 := by
        have hle : ((c : Int) : ℚ) / (((c : Int) + (m : Int) : Int) : ℚ) ≤ 1 := by
          rw [div_le_one htot]
          exact_mod_cast (by omega : (c : Int) ≤ (c : Int) + (m : Int))
        nlinarith
      constructor
      · simp only [pctInt, if_neg h]
        rw [round_eq, Int.le_floor]
        push_cast at hq0 ⊢
        linarith
      · simp only [pctInt, if_neg h]
        rw [round_eq]
        have hfl : ⌊((c : Int) : ℚ) / (((c : Int) + (m : Int) : Int) : ℚ) * 100 + 1 / 2⌋ < 101 := by
          rw [Int.floor_lt]
          push_cast at hq1 ⊢
          linarith
        omega
  · norm_num [pctInt, round_eq]
  · norm_num [pctInt, round_eq]

/- ### Coverage tree data model (`coverage.ts`) -/

/-- Model of the `SourceFile` type of `coverage.ts`. -/
structure SourceFile where
  name : String
  linesCovered : Int
  linesMissed : Int
  funcsCovered : Int
  funcsMissed : Int
  uncoveredLines : List Int
deriving DecidableEq

/-- Model of the `PackageNode` type of `coverage.ts`: display name, full path,
own source-file leaves, children (insertion-ordered `Map` whose keys always
equal the stored node's `name`), and the four optional aggregated metrics. -/
inductive PackageNode where
  | mk : String → String → List SourceFile → List PackageNode →
      Option Int → Option Int → Option Int → Option Int → PackageNode

def PackageNode.name : PackageNode → String
  | .mk n _ _ _ _ _ _ _ => n

def PackageNode.fullName : PackageNode → String
  | .mk _ fn _ _ _ _ _ _ => fn

def PackageNode.sourcefile : PackageNode → List SourceFile
  | .mk _ _ files _ _ _ _ _ => files

def PackageNode.children : PackageNode → List PackageNode
  | .mk _ _ _ ch _ _ _ _ => ch

def PackageNode.linesCovered : PackageNode → Option Int
  | .mk _ _ _ _ lc _ _ _ => lc

def PackageNode.linesMissed : PackageNode → Option Int
  | .mk _ _ _ _ _ lm _ _ => lm

def PackageNode.funcsCovered : PackageNode → Option Int
  | .mk _ _ _ _ _ _ fc _ => fc

def PackageNode.funcsMissed : PackageNode → Option Int
  | .mk _ _ _ _ _ _ _ fm => fm

/-- Tree induction principle for `PackageNode` (structural induction with the
inductive hypothesis for every child). -/
theorem PackageNode.covIndOn (motive : PackageNode → Prop)
    (step : ∀ n fn files ch a b c d,
      (∀ t ∈ ch, motive t) → motive (.mk n fn files ch a b c d)) :
    ∀ t, motive t
  | .mk n fn files ch a b c d =>
    step n fn files ch a b c d (fun t _ => PackageNode.covIndOn motive step t)
termination_by t => sizeOf t
decreasing_by
  rename_i ht
  have h1 := List.sizeOf_lt_of_mem ht
  simp only [PackageNode.mk.sizeOf_spec]
  omega

/-- The `localeCompare`-based comparator on child nodes used by
`aggregateCoverage`'s re-sorting of the children map. -/
def nodeLe (a b : PackageNode) : Bool := lcLe a.name b.name

/-- The `localeCompare`-based comparator on source files used by the
builder's `cur.sourcefile.sort((a, b) => a.name.localeCompare(b.name))`. -/
def fileLe (a b : SourceFile) : Bool := lcLe a.name b.name

mutual

/-- Model of `aggregateCoverage` (`coverage.ts` lines 267-297): post-order
recomputation of the four metrics as (sum over children, then sum over own
files), then re-ordering of the children map by name. -/
def aggregateCoverage : PackageNode → PackageNode
  | .mk n fn files ch _ _ _ _ =>
    let ch2 := aggregateCoverageList ch
    let lc := (ch2.map (fun c => c.linesCovered.getD 0)).sum +
      (files.map (·.linesCovered)).sum
    let lm := (ch2.map (fun c => c.linesMissed.getD 0)).sum +
      (files.map (·.linesMissed)).sum
    let fc := (ch2.map (fun c => c.funcsCovered.getD 0)).sum +
      (files.map (·.funcsCovered)).sum
    let fm := (ch2.map (fun c => c.funcsMissed.getD 0)).sum +
      (files.map (·.funcsMissed)).sum
    .mk n fn files (sortWith nodeLe ch2) (some lc) (some lm) (some fc) (some fm)

/-- Children loop of `aggregateCoverage`. -/
def aggregateCoverageList : List PackageNode → List PackageNode
  | [] => []
  | t :: ts => aggregateCoverage t :: aggregateCoverageList ts

end

/- ### JaCoCo input model and the coverage tree builder -/

/-- One decoded `<counter type=... covered=... missed=...>` element. -/
structure JCounter where
  ctype : String
  covered : Int
  missed : Int

/-- One decoded `<line nr=... mi=... ci=... mb=... cb=...>` element
(attribute defaults `0` already applied, as `+(l?.[...] ?? 0)` does). -/
structure JLine where
  nr : Int
  mi : Int
  ci : Int
  mb : Int
  cb : Int

/-- One decoded `<sourcefile>` element. -/
structure JSourcefile where
  name : Option String
  counters : List JCounter
  lines : List JLine

/-- One decoded `<class>` element (only the fields the fallback path reads). -/
structure JClass where
  sourcefilename : Option String
  counters : List JCounter

/-- One decoded `<package>` element. -/
structure JPackage where
  name : Option String
  sourcefiles : List JSourcefile
  classes : List JClass

/-- Model of `counters.find(c => c["@_type"] === t)`. -/
def findCounter (counters : List JCounter) (t : String) : Option JCounter :=
  counters.find? (fun c => c.ctype == t)

/-- Model of the per-`<sourcefile>` leaf construction of
`buildCoverageTreeFromJaCoCo` (lines 179-213): counter extraction with `?? 0`
defaults, the uncovered-line filter `mi + mb > 0 && ci + cb === 0`, and the
ascending numeric sort `(a, b) => a - b`. -/
def mkSourceFile (sf : JSourcefile) : SourceFile :=
  let lineCounter := findCounter sf.counters "LINE"
  let methodCounter := findCounter sf.counters "METHOD"
  { name := sf.name.getD "unknown"
    linesCovered := (lineCounter.map (·.covered)).getD 0
    linesMissed := (lineCounter.map (·.missed)).getD 0
    funcsCovered := (methodCounter.map (·.covered)).getD 0
    funcsMissed := (methodCounter.map (·.missed)).getD 0
    uncoveredLines := sortWith (fun a b => decide (a ≤ b))
      ((sf.lines.filter
        (fun l => decide (l.mi + l.mb > 0) && decide (l.ci + l.cb = 0))).map (·.nr)) }

/-- Accumulated counters of the `<class>`-fallback grouping. -/
structure GAcc where
  linesCovered : Int
  linesMissed : Int
  funcsCovered : Int
  funcsMissed : Int

/-- Model of `Map.prototype.set` on an insertion-ordered association list:
update in place when the key exists, else append. -/
def setAssoc : List (String × GAcc) → String → GAcc → List (String × GAcc)
  | [], k, v => [(k, v)]
  | (k', v') :: rest, k, v =>
    if k' = k then (k, v) :: rest else (k', v') :: setAssoc rest k v

/-- Model of `Map.prototype.get`. -/
def getAssoc (l : List (String × GAcc)) (k : String) : Option GAcc :=
  (l.find? (fun e => e.1 == k)).map (·.2)

/-- One step of the `<class>`-fallback grouping loop (lines 227-249). -/
def groupStep (acc : List (String × GAcc)) (c : JClass) : List (String × GAcc) :=
  let nm := c.sourcefilename.getD "unknown"
  let lineCounter := findCounter c.counters "LINE"
  let methodCounter := findCounter c.counters "METHOD"
  let g := (getAssoc acc nm).getD ⟨0, 0, 0, 0⟩
  setAssoc acc nm
    ⟨g.linesCovered + (lineCounter.map (·.covered)).getD 0,
     g.linesMissed + (lineCounter.map (·.missed)).getD 0,
     g.funcsCovered + (methodCounter.map (·.covered)).getD 0,
     g.funcsMissed + (methodCounter.map (·.missed)).getD 0⟩

/-- Leaves contributed by one `<package>`: its `<sourcefile>` entries when
present, else the `<class>`-fallback grouping (with empty uncovered lines). -/
def leavesOfPackage (p : JPackage) : List SourceFile :=
  if p.sourcefiles.isEmpty then
    (p.classes.foldl groupStep []).map (fun e =>
      { name := e.1
        linesCovered := e.2.linesCovered
        linesMissed := e.2.linesMissed
        funcsCovered := e.2.funcsCovered
        funcsMissed := e.2.funcsMissed
        uncoveredLines := [] })
  else p.sourcefiles.map mkSourceFile

/-- Model of `(pkg["@_name"] ?? "").replace(/\./g, "/")`. -/
def replaceDots (s : String) : String :=
  ⟨s.data.map (fun ch => if ch = '.' then '/' else ch)⟩

/-- Split a character list at every occurrence of `sep`, JS
`String.prototype.split` style (empty input gives one empty segment). -/
def splitSegs (sep : Char) : List Char → List (List Char)
  | [] => [[]]
  | ch :: rest =>
    match splitSegs sep rest with
    | [] => [[ch]]
    | g :: gs => if ch = sep then [] :: g :: gs else (ch :: g) :: gs

/-- Model of `s.split(sep)` for a one-character separator. -/
def splitOnChar (sep : Char) (s : String) : List String :=
  (splitSegs sep s.data).map (fun l => ⟨l⟩)

/-- Walk (creating nodes as needed, exactly like the `ensure` loop of the
builder) to the node at the remaining path and push `leaves` there, then sort
that node's `sourcefile` array by name. `path` is the full name accumulated
so far. The `Map` update is rendered functionally: when a child keyed `p`
exists it is updated in place (keys are unique by construction), else a fresh
node is appended, as `Map.set` does. -/
def addLeavesAt : PackageNode → String → List String → List SourceFile → PackageNode
  | .mk n fn files ch a b c d, _, [], leaves =>
    .mk n fn (sortWith fileLe (files ++ leaves)) ch a b c d
  | .mk n fn files ch a b c d, path, p :: ps, leaves =>
    let full := if path = "" then p else path ++ "/" ++ p
    let ch2 :=
      if ch.any (fun t => t.name == p) then
        ch.map (fun t => if t.name = p then addLeavesAt t full ps leaves else t)
      else
        ch ++ [addLeavesAt (PackageNode.mk p full [] [] none none none none) full ps leaves]
    .mk n fn files ch2 a b c d

/-- The freshly created coverage root (`name: "All files"`). -/
def rootCov : PackageNode := .mk "All files" "" [] [] none none none none

/-- Processing of one `<package>` element: dot-to-slash name normalization,
path split (empty name means the root itself), leaf attachment. -/
def addPackage (root : PackageNode) (p : JPackage) : PackageNode :=
  let pkgName := replaceDots (p.name.getD "")
  let parts := if pkgName = "" then [] else splitOnChar '/' pkgName
  addLeavesAt root "" parts (leavesOfPackage p)

/-- Model of `buildCoverageTreeFromJaCoCo` over the already-decoded package
list: `null` when the report has no `<package>` elements, else the aggregated
tree. -/
def buildCoverageTreeFromJaCoCo (pkgs : List JPackage) : Option PackageNode :=
  if pkgs.isEmpty then none
  else some (aggregateCoverage (pkgs.foldl addPackage rootCov))

/- ### Coverage predicates and structural lemmas -/

mutual

/-- The spec's aggregation invariant for coverage trees: every node's four
metrics are set and equal (sum over children's aggregated metrics) + (sum
over the node's own leaves). -/
def covAggOKb : PackageNode → Bool
  | .mk _ _ files ch lc lm fc fm =>
    decide (lc = some ((ch.map (fun c => c.linesCovered.getD 0)).sum +
      (files.map (·.linesCovered)).sum)) &&
    decide (lm = some ((ch.map (fun c => c.linesMissed.getD 0)).sum +
      (files.map (·.linesMissed)).sum)) &&
    decide (fc = some ((ch.map (fun c => c.funcsCovered.getD 0)).sum +
      (files.map (·.funcsCovered)).sum)) &&
    decide (fm = some ((ch.map (fun c => c.funcsMissed.getD 0)).sum +
      (files.map (·.funcsMissed)).sum)) &&
    covAggOKbList ch

/-- Conjunction of `covAggOKb` over a child list. -/
def covAggOKbList : List PackageNode → Bool
  | [] => true
  | t :: ts => covAggOKb t && covAggOKbList ts

end

mutual

/-- Every children map of the tree, at every level, is sorted by child name
under the `localeCompare` order. -/
def childrenSortedB : PackageNode → Bool
  | .mk _ _ _ ch _ _ _ _ => pairSortedB nodeLe ch && childrenSortedListB ch

/-- Conjunction of `childrenSortedB` over a child list. -/
def childrenSortedListB : List PackageNode → Bool
  | [] => true
  | t :: ts => childrenSortedB t && childrenSortedListB ts

end

mutual

/-- Check `f` on every source-file leaf of the tree. -/
def allLeavesB (f : SourceFile → Bool) : PackageNode → Bool
  | .mk _ _ files ch _ _ _ _ => files.all f && allLeavesListB f ch

/-- Conjunction of `allLeavesB` over a child list. -/
def allLeavesListB (f : SourceFile → Bool) : List PackageNode → Bool
  | [] => true
  | t :: ts => allLeavesB f t && allLeavesListB f ts

end

theorem aggregateCoverageList_eq_map :
    ∀ l : List PackageNode, aggregateCoverageList l = l.map aggregateCoverage := by
  intro l
  induction l with
  | nil => rfl
  | cons t ts ih => simp [aggregateCoverageList, ih]

theorem covAggOKbList_eq_all :
    ∀ l : List PackageNode, covAggOKbList l = l.all covAggOKb := by
  intro l
  induction l with
  | nil => rfl
  | cons t ts ih => simp [covAggOKbList, ih, List.all_cons]

theorem childrenSortedListB_eq_all :
    ∀ l : List PackageNode, childrenSortedListB l = l.all childrenSortedB := by
  intro l
  induction l with
  | nil => rfl
  | cons t ts ih => simp [childrenSortedListB, ih, List.all_cons]

theorem allLeavesListB_eq_all (f : SourceFile → Bool) :
    ∀ l : List PackageNode, allLeavesListB f l = l.all (allLeavesB f) := by
  intro l
  induction l with
  | nil => rfl
  | cons t ts ih => simp [allLeavesListB, ih, List.all_cons]

theorem all_congr_perm {α : Type _} (f : α → Bool) {l l' : List α}
    (h : l.Perm l') : l.all f = l'.all f := by
  cases ha : l'.all f with
  | true =>
    rw [List.all_eq_true] at ha ⊢
    intro x hx
    exact ha x (h.mem_iff.mp hx)
  | false =>
    rw [← Bool.not_eq_true] at ha ⊢
    rw [List.all_eq_true] at ha ⊢
    intro hall
    exact ha (fun x hx => hall x (h.mem_iff.mpr hx))

theorem map_id_of_mem {α : Type _} (f : α → α) :
    ∀ l : List α, (∀ x ∈ l, f x = x) → l.map f = l := by
  intro l
  induction l with
  | nil => intro _; rfl
  | cons x xs ih =>
    intro h
    simp only [List.map_cons, h x (List.mem_cons_self x xs)]
    rw [ih (fun y hy => h y (List.mem_cons_of_mem x hy))]

theorem nodeLe_total : ∀ a b : PackageNode, nodeLe a b = true ∨ nodeLe b a = true :=
  fun a b => lcLe_total a.name b.name

theorem fileLe_total : ∀ a b : SourceFile, fileLe a b = true ∨ fileLe b a = true :=
  fun a b => lcLe_total a.name b.name

theorem sum_congr_perm (f : PackageNode → Int) {l l' : List PackageNode}
    (h : l.Perm l') : (l.map f).sum = (l'.map f).sum :=
  (h.map f).sum_eq

/- ### Aggregation invariant, ordering and idempotence for the coverage tree -/

theorem covAggOKb_aggregateCoverage :
    ∀ t, covAggOKb (aggregateCoverage t) = true := by
  intro t
  induction t using PackageNode.covIndOn with
  | step n fn files ch a b c d ih =>
    simp only [aggregateCoverage, covAggOKb, Bool.and_eq_true, decide_eq_true_eq,
      aggregateCoverageList_eq_map]
    have hperm := sortWith_perm nodeLe (ch.map aggregateCoverage)
    refine ⟨⟨⟨⟨?_, ?_⟩, ?_⟩, ?_⟩, ?_⟩
    · rw [sum_congr_perm (fun c => c.linesCovered.getD 0) hperm]
    · rw [sum_congr_perm (fun c => c.linesMissed.getD 0) hperm]
    · rw [sum_congr_perm (fun c => c.funcsCovered.getD 0) hperm]
    · rw [sum_congr_perm (fun c => c.funcsMissed.getD 0) hperm]
    · rw [covAggOKbList_eq_all, all_congr_perm covAggOKb hperm, List.all_eq_true]
      intro x hx
      obtain ⟨c, hc, rfl⟩ := List.mem_map.mp hx
      exact ih c hc

theorem childrenSortedB_aggregateCoverage :
    ∀ t, childrenSortedB (aggregateCoverage t) = true := by
  intro t
  induction t using PackageNode.covIndOn with
  | step n fn files ch a b c d ih =>
    simp only [aggregateCoverage, childrenSortedB, Bool.and_eq_true,
      aggregateCoverageList_eq_map]
    constructor
    · exact sortWith_sorted nodeLe nodeLe_total _
    · rw [childrenSortedListB_eq_all,
        all_congr_perm childrenSortedB (sortWith_perm nodeLe _), List.all_eq_true]
      intro x hx
      obtain ⟨c, hc, rfl⟩ := List.mem_map.mp hx
      exact ih c hc

theorem aggregateCoverage_idem :
    ∀ t, aggregateCoverage (aggregateCoverage t) = aggregateCoverage t := by
  intro t
  induction t using PackageNode.covIndOn with
  | step n fn files ch a b c d ih =>
    simp only [aggregateCoverage, aggregateCoverageList_eq_map]
    have hmap : (sortWith nodeLe (ch.map aggregateCoverage)).map aggregateCoverage =
        sortWith nodeLe (ch.map aggregateCoverage) := by
      apply map_id_of_mem
      intro x hx
      rw [mem_sortWith] at hx
      obtain ⟨c, hc, rfl⟩ := List.mem_map.mp hx
      exact ih c hc
    rw [hmap]
    have hsorted := sortWith_sorted nodeLe nodeLe_total (ch.map aggregateCoverage)
    rw [sortWith_of_sorted nodeLe _ hsorted]
    have hperm := sortWith_perm nodeLe (ch.map aggregateCoverage)
    rw [sum_congr_perm (fun c => c.linesCovered.getD 0) hperm,
      sum_congr_perm (fun c => c.linesMissed.getD 0) hperm,
      sum_congr_perm (fun c => c.funcsCovered.getD 0) hperm,
      sum_congr_perm (fun c => c.funcsMissed.getD 0) hperm]

/- ### Source-file leaf properties through the build -/

theorem intLe_total : ∀ a b : Int,
    decide (a ≤ b) = true ∨ decide (b ≤ a) = true := by
  intro a b
  rcases le_total a b with h | h
  · left; simpa using h
  · right; simpa using h

theorem all_congr_mem {α : Type _} (f g : α → Bool) :
    ∀ l : List α, (∀ x ∈ l, f x = g x) → l.all f = l.all g := by
  intro l
  induction l with
  | nil => intro _; rfl
  | cons x xs ih =>
    intro h
    simp only [List.all_cons, h x (List.mem_cons_self x xs),
      ih (fun y hy => h y (List.mem_cons_of_mem x hy))]

theorem allLeavesB_aggregateCoverage (f : SourceFile → Bool) :
    ∀ t, allLeavesB f (aggregateCoverage t) = allLeavesB f t := by
  intro t
  induction t using PackageNode.covIndOn with
  | step n fn files ch a b c d ih =>
    simp only [aggregateCoverage, allLeavesB, aggregateCoverageList_eq_map]
    congr 1
    rw [allLeavesListB_eq_all, allLeavesListB_eq_all,
      all_congr_perm (allLeavesB f) (sortWith_perm nodeLe _), List.all_map]
    exact all_congr_mem _ _ ch (fun c hc => ih c hc)

theorem allLeavesB_addLeavesAt (f : SourceFile → Bool) :
    ∀ (ps : List String) (t : PackageNode) (path : String) (leaves : List SourceFile),
      allLeavesB f t = true → leaves.all f = true →
      allLeavesB f (addLeavesAt t path ps leaves) = true := by
  intro ps
  induction ps with
  | nil =>
    intro t path leaves ht hl
    cases t with
    | mk n fn files ch a b c d =>
      simp only [allLeavesB, Bool.and_eq_true] at ht
      simp only [addLeavesAt, allLeavesB, Bool.and_eq_true]
      refine ⟨?_, ht.2⟩
      rw [all_congr_perm f (sortWith_perm fileLe _), List.all_append]
      simp [ht.1, hl]
  | cons p ps ih =>
    intro t path leaves ht hl
    cases t with
    | mk n fn files ch a b c d =>
      simp only [allLeavesB, Bool.and_eq_true] at ht
      have hch := ht.2
      rw [allLeavesListB_eq_all, List.all_eq_true] at hch
      simp only [addLeavesAt, allLeavesB, Bool.and_eq_true]
      refine ⟨ht.1, ?_⟩
      by_cases hany : ch.any (fun t => t.name == p) = true
      · rw [if_pos hany, allLeavesListB_eq_all, List.all_eq_true]
        intro x hx
        obtain ⟨c, hc, rfl⟩ := List.mem_map.mp hx
        by_cases hname : c.name = p
        · rw [if_pos hname]
          exact ih c _ leaves (hch c hc) hl
        · rw [if_neg hname]
          exact hch c hc
      · rw [if_neg hany, allLeavesListB_eq_all, List.all_append, Bool.and_eq_true]
        constructor
        · rw [List.all_eq_true]
          exact fun x hx => hch x hx
        · rw [List.all_eq_true]
          intro x hx
          rw [List.mem_singleton] at hx
          subst hx
          exact ih _ _ leaves rfl hl

theorem leavesOfPackage_sortedLe (p : JPackage) :
    (leavesOfPackage p).all (fun sf => sortedLeB sf.uncoveredLines) = true := by
  unfold leavesOfPackage
  by_cases hsf : p.sourcefiles.isEmpty = true
  · rw [if_pos hsf, List.all_eq_true]
    intro x hx
    obtain ⟨e, _, rfl⟩ := List.mem_map.mp hx
    rfl
  · rw [if_neg hsf, List.all_eq_true]
    intro x hx
    obtain ⟨sf, _, rfl⟩ := List.mem_map.mp hx
    exact sortWith_sorted _ intLe_total _

theorem buildCoverage_allLeaves (f : SourceFile → Bool) :
    ∀ (pkgs : List JPackage) (r : PackageNode),
      (∀ p ∈ pkgs, (leavesOfPackage p).all f = true) →
      buildCoverageTreeFromJaCoCo pkgs = some r → allLeavesB f r = true := by
  have hfold : ∀ (l : List JPackage) (t : PackageNode),
      (∀ p ∈ l, (leavesOfPackage p).all f = true) → allLeavesB f t = true →
      allLeavesB f (l.foldl addPackage t) = true := by
    intro l
    induction l with
    | nil => intro t _ ht; exact ht
    | cons p l ih =>
      intro t hp ht
      exact ih _ (fun q hq => hp q (List.mem_cons_of_mem p hq))
        (allLeavesB_addLeavesAt f _ t _ _ ht (hp p (List.mem_cons_self p l)))
  intro pkgs r hleaves hr
  unfold buildCoverageTreeFromJaCoCo at hr
  by_cases hp : pkgs.isEmpty = true
  · rw [if_pos hp] at hr; cases hr
  · rw [if_neg hp] at hr
    have hre := Option.some.inj hr
    subst hre
    rw [allLeavesB_aggregateCoverage]
    exact hfold pkgs rootCov hleaves rfl

theorem ascB_of_sortedLe_nodup :
    ∀ l : List Int, sortedLeB l = true → l.Nodup → ascB l = true := by
  intro l
  induction l with
  | nil => intro _ _; rfl
  | cons x xs ih =>
    intro hs hn
    cases xs with
    | nil => rfl
    | cons y ys =>
      simp only [sortedLeB, pairSortedB, Bool.and_eq_true, decide_eq_true_eq] at hs
      simp only [List.nodup_cons, List.mem_cons] at hn
      have hxy : x < y := lt_of_le_of_ne hs.1 (fun hh => hn.1 (Or.inl hh))
      simp only [ascB, pairSortedB, Bool.and_eq_true, decide_eq_true_eq]
      refine ⟨hxy, ?_⟩
      have hn2 : (y :: ys).Nodup := by
        rw [List.nodup_cons]
        exact ⟨hn.2.1, hn.2.2⟩
      have htail := ih (by simpa [sortedLeB] using hs.2) hn2
      simpa [ascB] using htail

theorem leavesOfPackage_asc (p : JPackage)
    (hnd : ∀ sf ∈ p.sourcefiles, (sf.lines.map JLine.nr).Nodup) :
    (leavesOfPackage p).all (fun sf => ascB sf.uncoveredLines) = true := by
  unfold leavesOfPackage
  by_cases hsf : p.sourcefiles.isEmpty = true
  · rw [if_pos hsf, List.all_eq_true]
    intro x hx
    obtain ⟨e, _, rfl⟩ := List.mem_map.mp hx
    rfl
  · rw [if_neg hsf, List.all_eq_true]
    intro x hx
    obtain ⟨sf, hsfm, rfl⟩ := List.mem_map.mp hx
    apply ascB_of_sortedLe_nodup
    · exact sortWith_sorted _ intLe_total _
    · have h1 : ((sf.lines.filter
          (fun l => decide (l.mi + l.mb > 0) && decide (l.ci + l.cb = 0))).map
            JLine.nr).Nodup :=
        ((hnd sf hsfm).sublist ((List.filter_sublist _).map JLine.nr))
      exact ((sortWith_perm _ _).nodup_iff).mpr h1

/- ### Zero-leaf builds (coverage side) -/

/-- A coverage tree carrying no source-file leaf anywhere. -/
def noLeavesB : PackageNode → Bool := allLeavesB (fun _ => false)

theorem aggregate_zero_of_noLeaves :
    ∀ t, noLeavesB t = true →
      (aggregateCoverage t).linesCovered = some 0 ∧
      (aggregateCoverage t).linesMissed = some 0 ∧
      (aggregateCoverage t).funcsCovered = some 0 ∧
      (aggregateCoverage t).funcsMissed = some 0 := by
  intro t
  induction t using PackageNode.covIndOn with
  | step n fn files ch a b c d ih =>
    intro ht
    simp only [noLeavesB, allLeavesB, Bool.and_eq_true] at ht
    have hfiles : files = [] := by
      rw [List.all_eq_true] at ht
      rcases ht with ⟨hf, _⟩
      cases files with
      | nil => rfl
      | cons x xs => exact absurd (hf x (List.mem_cons_self x xs)) (by simp)
    have hch : ∀ c ∈ ch, noLeavesB c = true := by
      have := ht.2
      rw [allLeavesListB_eq_all, List.all_eq_true] at this
      exact fun c hc => this c hc
    subst hfiles
    have hz : ∀ (g : PackageNode → Option Int),
        (∀ c ∈ ch, g (aggregateCoverage c) = some 0) →
        ((aggregateCoverageList ch).map (fun c => (g c).getD 0)).sum = 0 := by
      intro g hg
      apply List.sum_eq_zero
      intro x hx
      rw [aggregateCoverageList_eq_map, List.map_map] at hx
      obtain ⟨c, hc, rfl⟩ := List.mem_map.mp hx
      simp [hg c hc]
    refine ⟨?_, ?_, ?_, ?_⟩ <;>
      simp only [aggregateCoverage, PackageNode.linesCovered, PackageNode.linesMissed,
        PackageNode.funcsCovered, PackageNode.funcsMissed, List.map_nil, List.sum_nil,
        add_zero, Option.some.injEq]
    · exact hz PackageNode.linesCovered (fun c hc => ((ih c hc) (hch c hc)).1)
    · exact hz PackageNode.linesMissed (fun c hc => ((ih c hc) (hch c hc)).2.1)
    · exact hz PackageNode.funcsCovered (fun c hc => ((ih c hc) (hch c hc)).2.2.1)
    · exact hz PackageNode.funcsMissed (fun c hc => ((ih c hc) (hch c hc)).2.2.2)

theorem leavesOfPackage_empty (p : JPackage)
    (h1 : p.sourcefiles = []) (h2 : p.classes = []) : leavesOfPackage p = [] := by
  unfold leavesOfPackage
  rw [h1, h2]
  rfl

/- ### CLI exit-code model (`commands/coverage.ts` lines 87-124 and
`commands/test.ts` lines 97-116) -/

/-- Inline percentage computation of `cmdCoverage` on the aggregated root:
`total === 0 ? 0 : Math.round(((cov ?? 0) / ((cov ?? 0) + (mis ?? 0))) * 100)`. -/
def rootPct (cov mis : Option Int) : Int :=
  if cov.getD 0 + mis.getD 0 = 0 then 0
  else round (((cov.getD 0 : Int) : ℚ) / (((cov.getD 0 + mis.getD 0 : Int)) : ℚ) * 100)

/-- Exit code of `cmdCoverage` after the tree is printed: `1` when no tree
could be built, else `2` as soon as a configured minimum is strictly above
the corresponding percentage (`exitCode = 2`, then
`exitCode = Math.max(exitCode, 2)`), else `0`. -/
def cmdCoverageExit (root : Option PackageNode) (minLines minFuncs : Option Int) : Nat :=
  match root with
  | none => 1
  | some r =>
    let lPct := rootPct r.linesCovered r.linesMissed
    let fPct := rootPct r.funcsCovered r.funcsMissed
    let e1 : Nat :=
      match minLines with
      | some m => if lPct < m then 2 else 0
      | none => 0
    match minFuncs with
    | some m => if fPct < m then max e1 2 else e1
    | none => e1

/-- Final exit code of `cmdTest` with `--coverage`:
`let finalCode = testCode; if (covCode !== 0) finalCode = covCode`. -/
def cmdTestFinalCode (testCode covCode : Nat) : Nat :=
  if covCode ≠ 0 then covCode else testCode

/-- Composition of `cmdTest` with the coverage step it spawns. -/
def cmdTestWithCoverage (testCode : Nat) (root : Option PackageNode)
    (minLines minFuncs : Option Int) : Nat :=
  cmdTestFinalCode testCode (cmdCoverageExit root minLines minFuncs)

/-- Aggregated root with 2 lines covered out of 5, so a lines percentage of
40. -/
def rootPct40 : PackageNode := .mk "All files" "" [] [] (some 2) (some 3) (some 0) (some 0)

theorem rootPct40_lines : rootPct rootPct40.linesCovered rootPct40.linesMissed = 40 := by
  norm_num [rootPct, rootPct40, PackageNode.linesCovered, PackageNode.linesMissed, round_eq]

/-- C2 counterexample: for a test-run exit code of `3` and a failed lines
threshold (40 < 50, coverage exit `2`), `cmdTest` returns `2`, not the
maximum `3` of the two codes. -/
theorem cmdTest_exit_not_max :
    cmdCoverageExit (some rootPct40) (some 50) none = 2 ∧
    cmdTestWithCoverage 3 (some rootPct40) (some 50) none = 2 ∧
    ¬ (cmdTestWithCoverage 3 (some rootPct40) (some 50) none =
        Nat.max 3 (cmdCoverageExit (some rootPct40) (some 50) none)) := by
  have hexit : cmdCoverageExit (some rootPct40) (some 50) none = 2 := by
    simp only [cmdCoverageExit, rootPct40_lines]
    norm_num
  refine ⟨hexit, ?_, ?_⟩
  · simp [cmdTestWithCoverage, hexit, cmdTestFinalCode]
  · simp [cmdTestWithCoverage, hexit, cmdTestFinalCode]

/-- C2 (amended). The final `cmdTest --coverage` exit code is the coverage
step's exit code whenever that is non-zero, and the test-run's own exit code
otherwise; in particular a lines percentage strictly below `minLines` forces
the final code `2` (non-zero) for every test-run exit code, including `0`. -/
theorem cmdTest_threshold_compounding :
    (∀ (tc : Nat) (root : Option PackageNode) (mL mF : Option Int),
      cmdCoverageExit root mL mF = 0 → cmdTestWithCoverage tc root mL mF = tc) ∧
    (∀ (tc : Nat) (r : PackageNode) (m : Int) (mF : Option Int),
      rootPct r.linesCovered r.linesMissed < m →
      cmdTestWithCoverage tc (some r) (some m) mF = 2) ∧
    (∀ (r : PackageNode) (m : Int) (mF : Option Int),
      rootPct r.linesCovered r.linesMissed < m →
      cmdTestWithCoverage 0 (some r) (some m) mF ≠ 0) := by
  have key : ∀ (tc : Nat) (r : PackageNode) (m : Int) (mF : Option Int),
      rootPct r.linesCovered r.linesMissed < m →
      cmdTestWithCoverage tc (some r) (some m) mF = 2 := by
    intro tc r m mF hlt
    have hcov : cmdCoverageExit (some r) (some m) mF = 2 := by
      simp only [cmdCoverageExit, if_pos hlt]
      cases mF with
      | none => rfl
      | some m' =>
        by_cases hf : rootPct r.funcsCovered r.funcsMissed < m'
        · simp [hf]
        · simp [hf]
    simp [cmdTestWithCoverage, hcov, cmdTestFinalCode]
  refine ⟨?_, key, ?_⟩
  · intro tc root mL mF h
    simp [cmdTestWithCoverage, h, cmdTestFinalCode]
  · intro r m mF h
    rw [key 0 r m mF h]
    omega

/-- C2 witness: test-run exit `0`, lines percentage 40 below the minimum 50,
final code `2`. -/
theorem cmdTest_threshold_compounding_witness :
    cmdTestWithCoverage 0 (some rootPct40) (some 50) none = 2 :=
  cmdTest_threshold_compounding.2.1 0 rootPct40 50 none
    (by rw [rootPct40_lines]; norm_num)

/- ### Claim theorems: coverage ordering (C8) and uncovered-line sorting (C10) -/

/-- Code-unit sortedness of a name list (what "case-sensitive lexical"
sorting would give). -/
def lexSortedB (l : List String) : Bool := pairSortedB lexLeB l

/-- C8 counterexample: building from the two packages `B` and `a` yields the
children `["a", "B"]` — the localeCompare order — which is not sorted under
the case-sensitive lexical (code-unit) comparison, where `"B" < "a"`. -/
theorem coverage_children_not_lexical :
    ((buildCoverageTreeFromJaCoCo
        [⟨some "B", [], []⟩, ⟨some "a", [], []⟩]).map
      (fun r => r.children.map PackageNode.name)) = some ["a", "B"] ∧
    lexSortedB ["a", "B"] = false := by
  exact ⟨rfl, rfl⟩

/-- C8 (amended). After aggregation — and hence after every successful build,
which ends in aggregation — every children map at every level of the
coverage tree is sorted by child name under the locale-aware
(`localeCompare`) order the code actually uses; this agrees with
case-sensitive lexical order on names whose lowercased forms differ, but not
in general. -/
theorem coverage_children_sorted :
    (∀ t, childrenSortedB (aggregateCoverage t) = true) ∧
    (∀ (pkgs : List JPackage) (r : PackageNode),
      buildCoverageTreeFromJaCoCo pkgs = some r → childrenSortedB r = true) := by
  refine ⟨childrenSortedB_aggregateCoverage, ?_⟩
  intro pkgs r hr
  unfold buildCoverageTreeFromJaCoCo at hr
  by_cases hp : pkgs.isEmpty = true
  · rw [if_pos hp] at hr; cases hr
  · rw [if_neg hp] at hr
    have hre := Option.some.inj hr
    subst hre
    exact childrenSortedB_aggregateCoverage _

/-- C8 witness: the build of the `B`/`a` example is sorted in the
localeCompare order. -/
theorem coverage_children_sorted_witness :
    childrenSortedB ((buildCoverageTreeFromJaCoCo
      [⟨some "B", [], []⟩, ⟨some "a", [], []⟩]).getD rootCov) = true :=
  coverage_children_sorted.2 [⟨some "B", [], []⟩, ⟨some "a", [], []⟩] _ rfl

/-- C10. Every source-file leaf attached by `buildCoverageTreeFromJaCoCo`
has its `uncoveredLines` sorted in ascending numeric order whatever the
order of the `<line>` entries; when the input carries no duplicate line
numbers (as JaCoCo reports do), the lists are strictly ascending, which is
exactly the sorted-distinct precondition `compressLines` is specified
against. -/
theorem uncoveredLines_sorted :
    (∀ (pkgs : List JPackage) (r : PackageNode),
      buildCoverageTreeFromJaCoCo pkgs = some r →
      allLeavesB (fun sf => sortedLeB sf.uncoveredLines) r = true) ∧
    (∀ (pkgs : List JPackage) (r : PackageNode),
      (∀ p ∈ pkgs, ∀ sf ∈ p.sourcefiles, (sf.lines.map JLine.nr).Nodup) →
      buildCoverageTreeFromJaCoCo pkgs = some r →
      allLeavesB (fun sf => ascB sf.uncoveredLines) r = true) := by
  constructor
  · intro pkgs r hr
    exact buildCoverage_allLeaves _ pkgs r (fun p _ => leavesOfPackage_sortedLe p) hr
  · intro pkgs r hnd hr
    exact buildCoverage_allLeaves _ pkgs r
      (fun p hp => leavesOfPackage_asc p (hnd p hp)) hr

/-- C10 witness: a single source file whose line entries arrive out of order
(`5` before `3`) still yields sorted uncovered lines. -/
theorem uncoveredLines_sorted_witness :
    allLeavesB (fun sf => sortedLeB sf.uncoveredLines)
      ((buildCoverageTreeFromJaCoCo
        [⟨some "a", [⟨some "F", [], [⟨5, 1, 0, 0, 0⟩, ⟨3, 1, 0, 0, 0⟩]⟩], []⟩]).getD
          rootCov) = true :=
  uncoveredLines_sorted.1
    [⟨some "a", [⟨some "F", [], [⟨5, 1, 0, 0, 0⟩, ⟨3, 1, 0, 0, 0⟩]⟩], []⟩] _ rfl

/- ### Outcome tree data model (`testsTree.ts`) -/

inductive TestStatus where
  | passed
  | failed
  | skipped
deriving DecidableEq

structure Counts where
  passed : Nat
  failed : Nat
  skipped : Nat
deriving DecidableEq

def Counts.add (a b : Counts) : Counts :=
  ⟨a.passed + b.passed, a.failed + b.failed, a.skipped + b.skipped⟩

def countsSum (l : List Counts) : Counts := l.foldr Counts.add ⟨0, 0, 0⟩

/-- Model of the `TestCaseNode` type. -/
structure TestCaseNode where
  name : String
  durationMs : Int
  status : TestStatus
  failureMessage : Option String
  failureType : Option String
  failureDetail : Option String
deriving DecidableEq

/-- Model of the `TestClassNode` type. -/
structure TestClassNode where
  name : String
  fullName : String
  cases : List TestCaseNode
  counts : Counts
  durationMs : Int
deriving DecidableEq

/-- Model of the `TestPackageNode` type: name, full dotted path, children
packages (insertion-ordered `Map` keyed by the child's `name`), classes
(likewise), aggregated counts and duration. -/
inductive TestPackageNode where
  | mk : String → String → List TestPackageNode → List TestClassNode →
      Counts → Int → TestPackageNode

def TestPackageNode.name : TestPackageNode → String
  | .mk n _ _ _ _ _ => n

def TestPackageNode.fullName : TestPackageNode → String
  | .mk _ fn _ _ _ _ => fn

def TestPackageNode.children : TestPackageNode → List TestPackageNode
  | .mk _ _ ch _ _ _ => ch

def TestPackageNode.classes : TestPackageNode → List TestClassNode
  | .mk _ _ _ cls _ _ => cls

def TestPackageNode.counts : TestPackageNode → Counts
  | .mk _ _ _ _ cnts _ => cnts

def TestPackageNode.durationMs : TestPackageNode → Int
  | .mk _ _ _ _ _ dur => dur

/-- Tree induction principle for `TestPackageNode`. -/
theorem TestPackageNode.testIndOn (motive : TestPackageNode → Prop)
    (step : ∀ n fn ch cls cnts dur,
      (∀ t ∈ ch, motive t) → motive (.mk n fn ch cls cnts dur)) :
    ∀ t, motive t
  | .mk n fn ch cls cnts dur =>
    step n fn ch cls cnts dur (fun t _ => TestPackageNode.testIndOn motive step t)
termination_by t => sizeOf t
decreasing_by
  rename_i ht
  have h1 := List.sizeOf_lt_of_mem ht
  simp only [TestPackageNode.mk.sizeOf_spec]
  omega

/- ### Aggregation (`aggregate`, `testsTree.ts` lines 228-254) -/

/-- One-hot counts of a single case, modelling `counts[c.status]++`. -/
def oneCount : TestStatus → Counts
  | .passed => ⟨1, 0, 0⟩
  | .failed => ⟨0, 1, 0⟩
  | .skipped => ⟨0, 0, 1⟩

/-- Counts of a case list (the class loop's `counts`). -/
def caseCounts (cs : List TestCaseNode) : Counts :=
  countsSum (cs.map (fun c => oneCount c.status))

/-- Total duration of a case list (the class loop's `dur`). -/
def caseDur (cs : List TestCaseNode) : Int := (cs.map (·.durationMs)).sum

/-- Class part of `aggregate`: overwrite the class's counts and duration with
its own case sums. -/
def aggClass (cls : TestClassNode) : TestClassNode :=
  { cls with counts := caseCounts cls.cases, durationMs := caseDur cls.cases }

mutual

/-- Model of `aggregate`: recompute every class's sums, then add (`+=`) the
class sums and the recursively aggregated children's sums onto the node's
existing counts and duration. -/
def aggregate : TestPackageNode → TestPackageNode
  | .mk n fn ch cls cnts dur =>
    let cls2 := cls.map aggClass
    let ch2 := aggregateList ch
    .mk n fn ch2 cls2
      (Counts.add (Counts.add cnts (countsSum (cls2.map (·.counts))))
        (countsSum (ch2.map TestPackageNode.counts)))
      (dur + (cls2.map (·.durationMs)).sum + (ch2.map TestPackageNode.durationMs).sum)

/-- Children loop of `aggregate`. -/
def aggregateList : List TestPackageNode → List TestPackageNode
  | [] => []
  | t :: ts => aggregate t :: aggregateList ts

end

/- ### JUnit input model and the outcome tree builder
(`buildTestsTree`, `testsTree.ts` lines 46-113) -/

/-- A decoded (truthy) `<failure>`/`<error>` element. -/
structure RawFailure where
  message : Option String
  ftype : Option String
  text : Option String

/-- One decoded `<testcase>` element. `time` carries the numeric value of the
`time` attribute (`none` for a missing or non-numeric attribute, which
`+tc["@_time"] || 0` turns into `0`); `failure`/`error` are `some` exactly
when the decoded entry is JS-truthy. -/
structure RawCase where
  name : Option String
  time : Option ℚ
  classname : Option String
  failure : Option RawFailure
  error : Option RawFailure
  skipped : Bool
  statusAttr : Option String

/-- One decoded `<testsuite>` element. -/
structure RawSuite where
  name : Option String
  cases : List RawCase

/-- Model of `classify`: failure/error win, then skip markers, else passed. -/
def classify (tc : RawCase) : TestStatus :=
  if tc.failure.isSome || tc.error.isSome then .failed
  else if tc.skipped || tc.statusAttr == some "skipped" then .skipped
  else .passed

/-- Model of `tc.failure || tc.error`. -/
def failureOf (tc : RawCase) : Option RawFailure := tc.failure <|> tc.error

/-- Model of `Math.round(timeSec * 1000)` with `timeSec = +time || 0`. -/
def jsTimeMs (t : Option ℚ) : Int := round (t.getD 0 * 1000)

/-- Construction of one `TestCaseNode` from a decoded case (lines 94-101). -/
def mkCaseNode (tc : RawCase) : TestCaseNode :=
  { name := tc.name.getD "unknown"
    durationMs := jsTimeMs tc.time
    status := classify tc
    failureMessage := (failureOf tc).bind (·.message)
    failureType := (failureOf tc).bind (·.ftype)
    failureDetail := (failureOf tc).bind (·.text) }

/-- JS `a || b` on an optional string (empty strings are falsy). -/
def jsOrStr (a : Option String) (b : String) : String :=
  match a with
  | some s => if s = "" then b else s
  | none => b

/-- Model of `tc["@_classname"] || s["@_name"] || "unknown.UnknownClass"`. -/
def resolvedClassname (tc : RawCase) (s : RawSuite) : String :=
  jsOrStr tc.classname (jsOrStr s.name "unknown.UnknownClass")

/-- Model of `splitClassName`: package path (segments before the last dot,
empty segments dropped), class name (after the last dot), full name. A name
without a dot keeps the whole string as class name with an empty path. -/
def splitClassName (classname : String) : List String × String × String :=
  match splitOnChar '.' classname with
  | [] => ([], classname, classname)
  | [_] => ([], classname, classname)
  | segs =>
    (segs.dropLast.filter (fun s => decide (s ≠ "")),
      (segs.getLast?).getD classname, classname)

/-- A freshly created package node (zero counts). -/
def newTestPkg (nm full : String) : TestPackageNode := .mk nm full [] [] ⟨0, 0, 0⟩ 0

/-- Model of `ensureClass` followed by `cls.cases.push(caseNode)`: reuse the
class keyed by name (its `fullName` is kept from creation time) and append
the case, else create it with the single case. -/
def ensureClassList (classes : List TestClassNode) (clsName clsFull : String)
    (c : TestCaseNode) : List TestClassNode :=
  if classes.any (fun cl => cl.name == clsName) then
    classes.map (fun cl =>
      if cl.name = clsName then { cl with cases := cl.cases ++ [c] } else cl)
  else
    classes ++ [{ name := clsName
                  fullName := clsFull
                  cases := [c]
                  counts := ⟨0, 0, 0⟩
                  durationMs := 0 }]

/-- Model of `ensurePackage` walking/creating the package path, then the class
and case insertion at the reached node. `path` accumulates the dotted full
name. -/
def addCaseAt : TestPackageNode → String → List String → String → String →
    TestCaseNode → TestPackageNode
  | .mk n fn ch cls cnts dur, _, [], clsName, clsFull, c =>
    .mk n fn ch (ensureClassList cls clsName clsFull c) cnts dur
  | .mk n fn ch cls cnts dur, path, p :: ps, clsName, clsFull, c =>
    let full := if path = "" then p else path ++ "." ++ p
    let ch2 :=
      if ch.any (fun t => t.name == p) then
        ch.map (fun t => if t.name = p then addCaseAt t full ps clsName clsFull c else t)
      else ch ++ [addCaseAt (newTestPkg p full) full ps clsName clsFull c]
    .mk n fn ch2 cls cnts dur

/-- Insertion of one decoded case (classname resolution, path split, walk). -/
def addCase (root : TestPackageNode) (s : RawSuite) (tc : RawCase) : TestPackageNode :=
  let cn := resolvedClassname tc s
  let parts := splitClassName cn
  addCaseAt root "" parts.1 parts.2.1 parts.2.2 (mkCaseNode tc)

/-- The freshly created outcome root (`name: "All tests"`). -/
def rootTests : TestPackageNode := .mk "All tests" "" [] [] ⟨0, 0, 0⟩ 0

/-- Case loop over one suite. -/
def addSuite (t : TestPackageNode) (s : RawSuite) : TestPackageNode :=
  s.cases.foldl (fun acc tc => addCase acc s tc) t

/-- One XML file: `none` stands for a file whose parse threw (the `catch`
continues with the next file), `some suites` for the decoded suites. -/
def addFile (t : TestPackageNode) (f : Option (List RawSuite)) : TestPackageNode :=
  match f with
  | none => t
  | some suites => suites.foldl addSuite t

/-- Model of `buildTestsTree` over the per-file decode results: insert every
case of every suite of every parseable file, then aggregate once. -/
def buildTestsTree (files : List (Option (List RawSuite))) : TestPackageNode :=
  aggregate (files.foldl addFile rootTests)

/- ### Outcome predicates and aggregation lemmas -/

/-- Class-level aggregation invariant: counts and duration equal the case
sums. -/
def clsOKb (cl : TestClassNode) : Bool :=
  decide (cl.counts = caseCounts cl.cases) && decide (cl.durationMs = caseDur cl.cases)

mutual

/-- The spec's aggregation invariant for outcome trees: every class carries
its case sums, and every node's counts/duration equal (sum over its classes)
plus (sum over its children), recursively. -/
def aggOKb : TestPackageNode → Bool
  | .mk _ _ ch cls cnts dur =>
    cls.all clsOKb &&
    decide (cnts = Counts.add (countsSum (cls.map (·.counts)))
      (countsSum (ch.map TestPackageNode.counts))) &&
    decide (dur = (cls.map (·.durationMs)).sum +
      (ch.map TestPackageNode.durationMs).sum) &&
    aggOKbList ch

/-- Conjunction of `aggOKb` over a child list. -/
def aggOKbList : List TestPackageNode → Bool
  | [] => true
  | t :: ts => aggOKb t && aggOKbList ts

end

mutual

/-- All package counts and durations of the tree are still zero (the shape
`buildTestsTree` creates before its one `aggregate` call). -/
def zeroCountsB : TestPackageNode → Bool
  | .mk _ _ ch _ cnts dur =>
    decide (cnts = ⟨0, 0, 0⟩) && decide (dur = 0) && zeroCountsBList ch

/-- Conjunction of `zeroCountsB` over a child list. -/
def zeroCountsBList : List TestPackageNode → Bool
  | [] => true
  | t :: ts => zeroCountsB t && zeroCountsBList ts

end

theorem aggregateList_eq_map :
    ∀ l : List TestPackageNode, aggregateList l = l.map aggregate := by
  intro l
  induction l with
  | nil => rfl
  | cons t ts ih => simp [aggregateList, ih]

theorem aggOKbList_eq_all :
    ∀ l : List TestPackageNode, aggOKbList l = l.all aggOKb := by
  intro l
  induction l with
  | nil => rfl
  | cons t ts ih => simp [aggOKbList, ih, List.all_cons]

theorem zeroCountsBList_eq_all :
    ∀ l : List TestPackageNode, zeroCountsBList l = l.all zeroCountsB := by
  intro l
  induction l with
  | nil => rfl
  | cons t ts ih => simp [zeroCountsBList, ih, List.all_cons]

theorem Counts.zero_add (a : Counts) : Counts.add ⟨0, 0, 0⟩ a = a := by
  cases a
  simp [Counts.add]

theorem clsOKb_aggClass (cl : TestClassNode) : clsOKb (aggClass cl) = true := by
  simp [clsOKb, aggClass]

theorem aggregate_ok : ∀ t, zeroCountsB t = true → aggOKb (aggregate t) = true := by
  intro t
  induction t using TestPackageNode.testIndOn with
  | step n fn ch cls cnts dur ih =>
    intro ht
    simp only [zeroCountsB, Bool.and_eq_true, decide_eq_true_eq] at ht
    obtain ⟨⟨hcnts, hdur⟩, hch⟩ := ht
    rw [zeroCountsBList_eq_all, List.all_eq_true] at hch
    subst hcnts hdur
    simp only [aggregate, aggOKb, Bool.and_eq_true, decide_eq_true_eq,
      aggregateList_eq_map]
    refine ⟨⟨⟨?_, ?_⟩, ?_⟩, ?_⟩
    · rw [List.all_eq_true]
      intro x hx
      obtain ⟨cl, _, rfl⟩ := List.mem_map.mp hx
      exact clsOKb_aggClass cl
    · rw [Counts.zero_add]
    · omega
    · rw [aggOKbList_eq_all, List.all_eq_true]
      intro x hx
      obtain ⟨c, hc, rfl⟩ := List.mem_map.mp hx
      exact ih c hc (hch c hc)

theorem foldl_pres {α β : Type _} (g : β → α → β) (P : β → Bool)
    (h : ∀ b a, P b = true → P (g b a) = true) :
    ∀ (l : List α) (b : β), P b = true → P (l.foldl g b) = true := by
  intro l
  induction l with
  | nil => intro b hb; exact hb
  | cons x xs ih => intro b hb; exact ih (g b x) (h b x hb)

theorem zero_addCaseAt :
    ∀ (ps : List String) (t : TestPackageNode) (path clsName clsFull : String)
      (c : TestCaseNode), zeroCountsB t = true →
      zeroCountsB (addCaseAt t path ps clsName clsFull c) = true := by
  intro ps
  induction ps with
  | nil =>
    intro t path clsName clsFull c ht
    cases t with
    | mk n fn ch cls cnts dur =>
      simp only [zeroCountsB, Bool.and_eq_true] at ht
      simp only [addCaseAt, zeroCountsB, Bool.and_eq_true]
      exact ht
  | cons p ps ih =>
    intro t path clsName clsFull c ht
    cases t with
    | mk n fn ch cls cnts dur =>
      simp only [zeroCountsB, Bool.and_eq_true] at ht
      obtain ⟨hcd, hch⟩ := ht
      rw [zeroCountsBList_eq_all, List.all_eq_true] at hch
      simp only [addCaseAt, zeroCountsB, Bool.and_eq_true]
      refine ⟨hcd, ?_⟩
      by_cases hany : ch.any (fun t => t.name == p) = true
      · rw [if_pos hany, zeroCountsBList_eq_all, List.all_eq_true]
        intro x hx
        obtain ⟨t', ht', rfl⟩ := List.mem_map.mp hx
        by_cases hname : t'.name = p
        · rw [if_pos hname]
          exact ih t' _ _ _ c (hch t' ht')
        · rw [if_neg hname]
          exact hch t' ht'
      · rw [if_neg hany, zeroCountsBList_eq_all, List.all_append, Bool.and_eq_true]
        constructor
        · rw [List.all_eq_true]
          exact fun x hx => hch x hx
        · rw [List.all_eq_true]
          intro x hx
          rw [List.mem_singleton] at hx
          subst hx
          exact ih _ _ _ _ c rfl

theorem zero_build_fold :
    ∀ files : List (Option (List RawSuite)),
      zeroCountsB (files.foldl addFile rootTests) = true := by
  intro files
  apply foldl_pres addFile zeroCountsB _ files rootTests rfl
  intro t f ht
  cases f with
  | none => exact ht
  | some suites =>
    apply foldl_pres addSuite zeroCountsB _ suites t ht
    intro t' s ht'
    apply foldl_pres (fun acc tc => addCase acc s tc) zeroCountsB _ s.cases t' ht'
    intro t'' tc ht''
    exact zero_addCaseAt _ t'' _ _ _ _ ht''

/- ### Claim theorems: aggregation correctness (C1), idempotence (C3),
zero-leaf builds (C6) -/

/-- C1. After every build, every node of the outcome tree satisfies the
aggregation invariant (counts/duration = own classes' case sums + children's
aggregated sums, recursively), and every node of every successfully built
coverage tree satisfies its invariant (four metrics = own files' sums +
children's aggregated sums, recursively). -/
theorem aggregation_correctness :
    (∀ files, aggOKb (buildTestsTree files) = true) ∧
    (∀ (pkgs : List JPackage) (r : PackageNode),
      buildCoverageTreeFromJaCoCo pkgs = some r → covAggOKb r = true) := by
  constructor
  · intro files
    exact aggregate_ok _ (zero_build_fold files)
  · intro pkgs r hr
    unfold buildCoverageTreeFromJaCoCo at hr
    by_cases hp : pkgs.isEmpty = true
    · rw [if_pos hp] at hr; cases hr
    · rw [if_neg hp] at hr
      have hre := Option.some.inj hr
      subst hre
      exact covAggOKb_aggregateCoverage _

/-- C1 witness: both invariants on small concrete builds. -/
theorem aggregation_correctness_witness :
    aggOKb (buildTestsTree []) = true ∧
    covAggOKb ((buildCoverageTreeFromJaCoCo [⟨some "a", [], []⟩]).getD rootCov) = true :=
  ⟨aggregation_correctness.1 [], aggregation_correctness.2 [⟨some "a", [], []⟩] _ rfl⟩

/-- C3 (amended). The coverage aggregation pass is idempotent: re-running
`aggregateCoverage` on an already-aggregated tree leaves every number (and
the whole tree) unchanged. The outcome tree's `aggregate` is not idempotent —
a second run adds every class and child sum onto the node counts again (see
the counterexample); the builder runs it exactly once, on a zero-initialized
tree. -/
theorem aggregation_idem_coverage :
    ∀ t, aggregateCoverage (aggregateCoverage t) = aggregateCoverage t :=
  aggregateCoverage_idem

/-- Fresh one-class outcome tree: one passed case of 5 ms. -/
def exAgg : TestPackageNode :=
  .mk "All tests" "" []
    [⟨"C", "C", [⟨"t", 5, .passed, none, none, none⟩], ⟨0, 0, 0⟩, 0⟩] ⟨0, 0, 0⟩ 0

/-- C3 counterexample: running the outcome `aggregate` twice doubles the
aggregated numbers (counts `⟨2,0,0⟩` and duration 10 instead of `⟨1,0,0⟩`
and 5), so the outcome aggregation pass is not idempotent. -/
theorem aggregate_not_idempotent :
    (aggregate (aggregate exAgg)).counts = ⟨2, 0, 0⟩ ∧
    (aggregate (aggregate exAgg)).durationMs = 10 ∧
    (aggregate exAgg).counts = ⟨1, 0, 0⟩ ∧
    (aggregate exAgg).durationMs = 5 ∧
    aggregate (aggregate exAgg) ≠ aggregate exAgg := by
  refine ⟨by decide, by decide, by decide, by decide, ?_⟩
  intro h
  exact absurd (congrArg TestPackageNode.counts h) (by decide)

/-- Total number of decoded test cases across the parseable files. -/
def filesCaseCount (files : List (Option (List RawSuite))) : Nat :=
  (files.map (fun f =>
    match f with
    | none => 0
    | some suites => (suites.map (fun s => s.cases.length)).sum)).sum

theorem fold_eq_root_of_zero_cases :
    ∀ files : List (Option (List RawSuite)), filesCaseCount files = 0 →
      files.foldl addFile rootTests = rootTests := by
  have hsuite : ∀ (suites : List RawSuite) (t : TestPackageNode),
      (suites.map (fun s => s.cases.length)).sum = 0 →
      suites.foldl addSuite t = t := by
    intro suites
    induction suites with
    | nil => intro t _; rfl
    | cons s ss ih =>
      intro t h
      simp only [List.map_cons, List.sum_cons, Nat.add_eq_zero] at h
      have hcases : s.cases = [] := List.eq_nil_of_length_eq_zero h.1
      show ss.foldl addSuite (addSuite t s) = t
      rw [show addSuite t s = t from by rw [addSuite, hcases]; rfl]
      exact ih t h.2
  intro files
  induction files with
  | nil => intro _; rfl
  | cons f fs ih =>
    intro h
    simp only [filesCaseCount, List.map_cons, List.sum_cons, Nat.add_eq_zero] at h
    show fs.foldl addFile (addFile rootTests f) = rootTests
    have hf : addFile rootTests f = rootTests := by
      cases f with
      | none => rfl
      | some suites => exact hsuite suites rootTests h.1
    rw [hf]
    exact ih h.2

theorem fold_skip_none :
    ∀ (files : List (Option (List RawSuite))) (t : TestPackageNode),
      files.foldl addFile t = (files.filter (fun f => f.isSome)).foldl addFile t := by
  intro files
  induction files with
  | nil => intro t; rfl
  | cons f fs ih =>
    intro t
    cases f with
    | none =>
      rw [List.filter_cons]
      simp only [Option.isSome_none, Bool.false_eq_true, if_false, List.foldl_cons]
      exact ih t
    | some suites =>
      rw [List.filter_cons]
      simp only [Option.isSome_some, if_true, List.foldl_cons]
      exact ih _

theorem zeros_of_covAggOK_noLeaves :
    ∀ r, covAggOKb r = true → noLeavesB r = true →
      r.linesCovered = some 0 ∧ r.linesMissed = some 0 ∧
      r.funcsCovered = some 0 ∧ r.funcsMissed = some 0 := by
  intro r
  induction r using PackageNode.covIndOn with
  | step n fn files ch a b c d ih =>
    intro hok hnl
    simp only [covAggOKb, Bool.and_eq_true, decide_eq_true_eq] at hok
    obtain ⟨⟨⟨⟨hlc, hlm⟩, hfc⟩, hfm⟩, hchok⟩ := hok
    rw [covAggOKbList_eq_all, List.all_eq_true] at hchok
    simp only [noLeavesB, allLeavesB, Bool.and_eq_true] at hnl
    have hfiles : files = [] := by
      rcases hnl with ⟨hf, _⟩
      rw [List.all_eq_true] at hf
      cases files with
      | nil => rfl
      | cons x xs => exact absurd (hf x (List.mem_cons_self x xs)) (by simp)
    have hchnl : ∀ t ∈ ch, noLeavesB t = true := by
      have := hnl.2
      rw [allLeavesListB_eq_all, List.all_eq_true] at this
      exact this
    subst hfiles
    have hz : ∀ (g : PackageNode → Option Int), (∀ t ∈ ch, g t = some 0) →
        (ch.map (fun t => (g t).getD 0)).sum = 0 := by
      intro g hg
      apply List.sum_eq_zero
      intro x hx
      obtain ⟨t, htm, rfl⟩ := List.mem_map.mp hx
      simp [hg t htm]
    simp only [List.map_nil, List.sum_nil, add_zero] at hlc hlm hfc hfm
    refine ⟨?_, ?_, ?_, ?_⟩
    all_goals simp only [PackageNode.linesCovered, PackageNode.linesMissed,
      PackageNode.funcsCovered, PackageNode.funcsMissed]
    · rw [hlc, hz PackageNode.linesCovered
        (fun t htm => ((ih t htm) (hchok t htm) (hchnl t htm)).1)]
    · rw [hlm, hz PackageNode.linesMissed
        (fun t htm => ((ih t htm) (hchok t htm) (hchnl t htm)).2.1)]
    · rw [hfc, hz PackageNode.funcsCovered
        (fun t htm => ((ih t htm) (hchok t htm) (hchnl t htm)).2.2.1)]
    · rw [hfm, hz PackageNode.funcsMissed
        (fun t htm => ((ih t htm) (hchok t htm) (hchnl t htm)).2.2.2)]

theorem buildCoverage_some (pkgs : List JPackage) (h : pkgs.isEmpty = false) :
    buildCoverageTreeFromJaCoCo pkgs =
      some (aggregateCoverage (pkgs.foldl addPackage rootCov)) := by
  unfold buildCoverageTreeFromJaCoCo
  rw [if_neg (by simp [h])]

/-- C6 (amended). A build over zero valid leaf records yields a zero-metrics
root for the outcome tree, and unparseable files are skipped one by one
(building from the parseable files only gives the identical tree). The
coverage builder yields a zero-metrics root only when the report still
contains at least one `<package>` element with no leaves; a report with no
`<package>` elements makes it return `null` instead (see the
counterexample). -/
theorem zero_leaf_builds :
    (∀ files, filesCaseCount files = 0 →
      (buildTestsTree files).counts = ⟨0, 0, 0⟩ ∧
      (buildTestsTree files).durationMs = 0) ∧
    (∀ files, buildTestsTree files = buildTestsTree (files.filter (fun f => f.isSome))) ∧
    (∀ pkgs : List JPackage, pkgs ≠ [] →
      (∀ p ∈ pkgs, p.sourcefiles = [] ∧ p.classes = []) →
      ∃ r, buildCoverageTreeFromJaCoCo pkgs = some r ∧
        r.linesCovered = some 0 ∧ r.linesMissed = some 0 ∧
        r.funcsCovered = some 0 ∧ r.funcsMissed = some 0) := by
  refine ⟨?_, ?_, ?_⟩
  · intro files h
    unfold buildTestsTree
    rw [fold_eq_root_of_zero_cases files h]
    exact ⟨by decide, by decide⟩
  · intro files
    unfold buildTestsTree
    rw [fold_skip_none]
  · intro pkgs hne hempty
    have hisE : pkgs.isEmpty = false := by
      cases pkgs with
      | nil => exact absurd rfl hne
      | cons _ _ => rfl
    have hr := buildCoverage_some pkgs hisE
    refine ⟨_, hr, ?_⟩
    apply zeros_of_covAggOK_noLeaves
    · exact aggregation_correctness.2 pkgs _ hr
    · exact buildCoverage_allLeaves (fun _ => false) pkgs _
        (fun p hp => by rw [leavesOfPackage_empty p (hempty p hp).1 (hempty p hp).2]; rfl)
        hr

/-- C6 counterexample: a report with zero `<package>` elements (hence zero
valid leaves) makes the coverage builder return `null`, which the caller
reports as an error with exit code 1 — not a zero-metrics root. -/
theorem buildCoverage_nil_is_none : buildCoverageTreeFromJaCoCo [] = none := rfl

/-- C6 witness: a parseable file with no suites yields the zero root. -/
theorem zero_leaf_builds_witness :
    filesCaseCount [some []] = 0 ∧ (buildTestsTree [some []]).counts = ⟨0, 0, 0⟩ :=
  ⟨rfl, (zero_leaf_builds.1 [some []] rfl).1⟩

/- ### Test-case collection and durations (C9) -/

/-- Cases of a class list, in order. -/
def classesCases : List TestClassNode → List TestCaseNode
  | [] => []
  | cl :: cls => cl.cases ++ classesCases cls

mutual

/-- Every test case stored anywhere in the tree. -/
def allCasesPkg : TestPackageNode → List TestCaseNode
  | .mk _ _ ch cls _ _ => classesCases cls ++ allCasesList ch

/-- Case collection over a child list. -/
def allCasesList : List TestPackageNode → List TestCaseNode
  | [] => []
  | t :: ts => allCasesPkg t ++ allCasesList ts

end

theorem classesCases_append : ∀ l1 l2 : List TestClassNode,
    classesCases (l1 ++ l2) = classesCases l1 ++ classesCases l2 := by
  intro l1 l2
  induction l1 with
  | nil => rfl
  | cons cl cls ih => simp [classesCases, ih]

theorem mem_classesCases {x : TestCaseNode} : ∀ {cls : List TestClassNode},
    x ∈ classesCases cls ↔ ∃ cl ∈ cls, x ∈ cl.cases := by
  intro cls
  induction cls with
  | nil => simp [classesCases]
  | cons cl cls ih => simp [classesCases, ih, List.mem_append, or_and_right, exists_or]

theorem mem_allCasesList {x : TestCaseNode} : ∀ {l : List TestPackageNode},
    x ∈ allCasesList l ↔ ∃ t ∈ l, x ∈ allCasesPkg t := by
  intro l
  induction l with
  | nil => simp [allCasesList]
  | cons t ts ih => simp [allCasesList, ih, List.mem_append, or_and_right, exists_or]

theorem classesCases_map_aggClass : ∀ cls : List TestClassNode,
    classesCases (cls.map aggClass) = classesCases cls := by
  intro cls
  induction cls with
  | nil => rfl
  | cons cl cls ih => simp [classesCases, aggClass, ih]

theorem allCasesPkg_aggregate : ∀ t, allCasesPkg (aggregate t) = allCasesPkg t := by
  intro t
  induction t using TestPackageNode.testIndOn with
  | step n fn ch cls cnts dur ih =>
    simp only [aggregate, allCasesPkg, aggregateList_eq_map, classesCases_map_aggClass]
    congr 1
    induction ch with
    | nil => rfl
    | cons c cs ihl =>
      simp only [List.map_cons, allCasesList]
      rw [ih c (List.mem_cons_self c cs),
        ihl (fun t ht => ih t (List.mem_cons_of_mem c ht))]

theorem mem_ensureClassList {x : TestCaseNode}
    (cls : List TestClassNode) (cn cf : String) (c : TestCaseNode) :
    x ∈ classesCases (ensureClassList cls cn cf c) →
      x = c ∨ x ∈ classesCases cls := by
  intro hx
  unfold ensureClassList at hx
  by_cases hany : cls.any (fun cl => cl.name == cn) = true
  · rw [if_pos hany] at hx
    rw [mem_classesCases] at hx
    obtain ⟨cl', hcl', hxc⟩ := hx
    obtain ⟨cl, hcl, rfl⟩ := List.mem_map.mp hcl'
    by_cases hname : cl.name = cn
    · rw [if_pos hname] at hxc
      simp only [List.mem_append, List.mem_singleton] at hxc
      rcases hxc with h | h
      · right; rw [mem_classesCases]; exact ⟨cl, hcl, h⟩
      · left; exact h
    · rw [if_neg hname] at hxc
      right; rw [mem_classesCases]; exact ⟨cl, hcl, hxc⟩
  · rw [if_neg hany, classesCases_append] at hx
    simp only [List.mem_append] at hx
    rcases hx with h | h
    · right; exact h
    · simp only [classesCases, List.append_nil] at h
      rw [List.mem_singleton] at h
      left; exact h

theorem mem_addCaseAt {x : TestCaseNode} :
    ∀ (ps : List String) (t : TestPackageNode) (path cn cf : String)
      (c : TestCaseNode),
      x ∈ allCasesPkg (addCaseAt t path ps cn cf c) →
      x = c ∨ x ∈ allCasesPkg t := by
  intro ps
  induction ps with
  | nil =>
    intro t path cn cf c hx
    cases t with
    | mk n fn ch cls cnts dur =>
      simp only [addCaseAt, allCasesPkg, List.mem_append] at hx ⊢
      rcases hx with h | h
      · rcases mem_ensureClassList cls cn cf c h with h' | h'
        · left; exact h'
        · right; left; exact h'
      · right; right; exact h
  | cons p ps ih =>
    intro t path cn cf c hx
    cases t with
    | mk n fn ch cls cnts dur =>
      simp only [addCaseAt, allCasesPkg, List.mem_append] at hx ⊢
      rcases hx with h | h
      · right; left; exact h
      · by_cases hany : ch.any (fun t => t.name == p) = true
        · rw [if_pos hany] at h
          rw [mem_allCasesList] at h
          obtain ⟨t', ht', hxt⟩ := h
          obtain ⟨t0, ht0, rfl⟩ := List.mem_map.mp ht'
          by_cases hname : t0.name = p
          · rw [if_pos hname] at hxt
            rcases ih t0 _ _ _ c hxt with h' | h'
            · left; exact h'
            · right; right; rw [mem_allCasesList]; exact ⟨t0, ht0, h'⟩
          · rw [if_neg hname] at hxt
            right; right; rw [mem_allCasesList]; exact ⟨t0, ht0, hxt⟩
        · rw [if_neg hany] at h
          rw [mem_allCasesList] at h
          obtain ⟨t', ht', hxt⟩ := h
          simp only [List.mem_append, List.mem_singleton] at ht'
          rcases ht' with h0 | h0
          · right; right; rw [mem_allCasesList]; exact ⟨t', h0, hxt⟩
          · subst h0
            rcases ih _ _ _ _ c hxt with h' | h'
            · left; exact h'
            · simp [allCasesPkg, newTestPkg, classesCases, allCasesList] at h'

theorem foldl_pres_all {α β : Type _} (g : β → α → β) (P : β → Bool) (Q : α → Bool)
    (h : ∀ b a, Q a = true → P b = true → P (g b a) = true) :
    ∀ (l : List α) (b : β), l.all Q = true → P b = true → P (l.foldl g b) = true := by
  intro l
  induction l with
  | nil => intro b _ hb; exact hb
  | cons x xs ih =>
    intro b hq hb
    rw [List.all_cons, Bool.and_eq_true] at hq
    exact ih (g b x) hq.2 (h b x hq.1 hb)

/-- Per-case precondition: the decoded numeric `time` value, when present,
is non-negative (missing/non-numeric attributes already decode to `0`). -/
def timeOKb (tc : RawCase) : Bool :=
  match tc.time with
  | none => true
  | some q => decide (0 ≤ q)

/-- All `time` attributes of the decoded input are non-negative. -/
def nonNegTimesB (files : List (Option (List RawSuite))) : Bool :=
  files.all (fun f =>
    match f with
    | none => true
    | some suites => suites.all (fun s => s.cases.all timeOKb))

theorem jsTimeMs_nonneg (t : Option ℚ) (h : timeOKb ⟨none, t, none, none, none, false, none⟩ = true) :
    0 ≤ jsTimeMs t := by
  cases t with
  | none =>
    show (0 : Int) ≤ round ((0 : ℚ) * 1000)
    norm_num
  | some q =>
    have hq : (0 : ℚ) ≤ q := by
      simpa [timeOKb] using h
    show (0 : Int) ≤ round (q * 1000)
    rw [round_eq, Int.le_floor]
    push_cast
    nlinarith

/-- C9 (amended). Whenever every decoded `time` attribute carries a
non-negative value (missing and non-numeric attributes decode to `0`), every
test-case entry of the built outcome tree has a non-negative `durationMs`.
(A negative `time` value produces a negative `durationMs`; see the
counterexample.) -/
theorem durations_nonneg :
    ∀ files, nonNegTimesB files = true →
      (allCasesPkg (buildTestsTree files)).all
        (fun c => decide (0 ≤ c.durationMs)) = true := by
  intro files h
  unfold buildTestsTree
  rw [show ∀ t, (allCasesPkg (aggregate t)).all (fun c => decide (0 ≤ c.durationMs)) =
      (allCasesPkg t).all (fun c => decide (0 ≤ c.durationMs)) from
        fun t => by rw [allCasesPkg_aggregate]]
  refine foldl_pres_all addFile
    (fun t => (allCasesPkg t).all (fun c => decide (0 ≤ c.durationMs)))
    (fun f => match f with
      | none => true
      | some suites => suites.all (fun s => s.cases.all timeOKb))
    ?_ files rootTests h rfl
  intro t f hq ht
  cases f with
  | none => exact ht
  | some suites =>
    refine foldl_pres_all addSuite
      (fun t => (allCasesPkg t).all (fun c => decide (0 ≤ c.durationMs)))
      (fun s => s.cases.all timeOKb) ?_ suites t hq ht
    intro t' s hq' ht'
    refine foldl_pres_all (fun acc tc => addCase acc s tc)
      (fun t => (allCasesPkg t).all (fun c => decide (0 ≤ c.durationMs)))
      timeOKb ?_ s.cases t' hq' ht'
    intro t'' tc hq'' ht''
    rw [List.all_eq_true]
    intro x hx
    rcases mem_addCaseAt _ _ _ _ _ _ hx with h' | h'
    · subst h'
      simp only [mkCaseNode, decide_eq_true_eq]
      exact jsTimeMs_nonneg tc.time (by simpa [timeOKb] using hq'')
    · rw [List.all_eq_true] at ht''
      exact ht'' x h'

/-- C9 witness: a decoded case with a missing `time` attribute yields a
non-negative (zero) duration. -/
theorem durations_nonneg_witness :
    (allCasesPkg (buildTestsTree
      [some [⟨some "S", [⟨some "t", none, some "C", none, none, false, none⟩]⟩]])).all
        (fun c => decide (0 ≤ c.durationMs)) = true :=
  durations_nonneg [some [⟨some "S", [⟨some "t", none, some "C", none, none, false, none⟩]⟩]]
    (by decide)

/-- C9 counterexample: a decoded case whose `time` attribute carries `-1`
produces `durationMs = -1000`, which is negative. -/
theorem durationMs_negative :
    (allCasesPkg (buildTestsTree
      [some [⟨some "S", [⟨some "t", some (-1), some "C", none, none, false, none⟩]⟩]])).map
        TestCaseNode.durationMs = [jsTimeMs (some (-1))] ∧
    jsTimeMs (some (-1)) = -1000 ∧ ¬ ((0 : Int) ≤ -1000) := by
  refine ⟨rfl, ?_, by decide⟩
  show round ((-1 : ℚ) * 1000) = -1000
  norm_num [round_eq]

/- ### Renderer model (`printTestsTree` / `renderPkg`, `testsTree.ts`
lines 256-367) -/

def colReset : String := "\x1b[0m"

def colBold : String := "\x1b[1m"

def colGreen : String := "\x1b[32m"

def colYellow : String := "\x1b[33m"

def colRed : String := "\x1b[31m"

/-- Model of `(ms / 1000).toFixed(2)` for `1000 ≤ ms < 60000`: hundredths of
seconds rounded half-up, rendered with two decimals. -/
def fmtFixed2 (ms : Int) : String :=
  let n := (ms + 5) / 10
  let fr := n % 100
  toString (n / 100) ++ "." ++ (if fr < 10 then "0" ++ toString fr else toString fr)

/-- Model of `(s % 60).toFixed(1)` on the millisecond remainder. -/
def fmtFixed1 (msRem : Int) : String :=
  let n := (msRem + 50) / 100
  toString (n / 10) ++ "." ++ toString (n % 10)

/-- Model of `fmtMs`. -/
def fmtMs (ms : Int) : String :=
  if ms < 1000 then toString ms ++ "ms"
  else if ms < 60000 then fmtFixed2 ms ++ "s"
  else toString (ms / 60000) ++ "m " ++ fmtFixed1 (ms % 60000) ++ "s"

inductive CountKind where
  | passed
  | failed
  | skipped

/-- Model of `colorCount`. -/
def colorCount (n : Nat) (kind : CountKind) : String :=
  match kind with
  | .failed => if n > 0 then colRed ++ toString n ++ colReset else toString n
  | .skipped => if n > 0 then colYellow ++ toString n ++ colReset else toString n
  | .passed => if n > 0 then colGreen ++ toString n ++ colReset else toString n

/-- Model of `countsLabel`. -/
def countsLabel (c : Counts) : String :=
  "P:" ++ colorCount c.passed .passed ++ ", F:" ++ colorCount c.failed .failed ++
    ", S:" ++ colorCount c.skipped .skipped

/-- Model of `TestTreeOptions` (defaults already resolved to booleans, as
`!!opts.includeTests` / `!!opts.failuresOnly` do). -/
structure TestTreeOptions where
  includeTests : Bool
  failuresOnly : Bool

def statusIcon : TestStatus → String
  | .passed => "✅"
  | .skipped => "⚠️"
  | .failed => "❌"

def statusColoredName (t : TestCaseNode) : String :=
  match t.status with
  | .failed => colRed ++ t.name ++ colReset
  | .skipped => colYellow ++ t.name ++ colReset
  | .passed => colGreen ++ t.name ++ colReset

/-- One test-case line (plus a failure detail line for a failed case whose
message is truthy). -/
def renderCase (t : TestCaseNode) (testsPre : String) (isLastTest : Bool) : String :=
  let testBranch := if isLastTest then "└── " else "├── "
  let line := testsPre ++ testBranch ++ statusIcon t.status ++ " " ++
    statusColoredName t ++ " (" ++ fmtMs t.durationMs ++ ")\n"
  line ++
    (match t.failureMessage with
     | some m =>
       if t.status = .failed ∧ m ≠ "" then
         testsPre ++ (if isLastTest then "    " else "│   ") ++ "- " ++
           colRed ++ m ++ colReset ++ "\n"
       else ""
     | none => "")

/-- Case loop of `renderPkg` (index-based last-element bookkeeping). -/
def renderCases : List TestCaseNode → String → String
  | [], _ => ""
  | [t], p => renderCase t p true
  | t :: ts@(_ :: _), p => renderCase t p false ++ renderCases ts p

/-- One class line plus (when requested) its case lines. -/
def renderClass (cls : TestClassNode) (isLastClass : Bool) (childPre : String)
    (opts : TestTreeOptions) : String :=
  let clsBranch := if isLastClass then "└── " else "├── "
  let line := childPre ++ clsBranch ++ cls.name ++ " (" ++ countsLabel cls.counts ++
    ", " ++ fmtMs cls.durationMs ++ ")\n"
  if opts.includeTests then
    let tests := if opts.failuresOnly then
        cls.cases.filter (fun t => t.status == .failed)
      else cls.cases
    line ++ renderCases tests (childPre ++ (if isLastClass then "    " else "│   "))
  else line

/-- Class loop of `renderPkg`; the flag says whether the children list to be
shown is empty (`isLastClass` of the final class). -/
def renderClasses : List TestClassNode → Bool → String → TestTreeOptions → String
  | [], _, _, _ => ""
  | [cl], noCh, p, o => renderClass cl noCh p o
  | cl :: cls@(_ :: _), noCh, p, o => renderClass cl false p o ++ renderClasses cls noCh p o

theorem sizeOf_filter_le {α : Type _} [SizeOf α] (p : α → Bool) :
    ∀ l : List α, sizeOf (l.filter p) ≤ sizeOf l := by
  intro l
  induction l with
  | nil => simp
  | cons x xs ih =>
    rw [List.filter_cons]
    by_cases h : p x = true
    · rw [if_pos h]
      simp only [List.cons.sizeOf_spec]
      omega
    · rw [if_neg h]
      simp only [List.cons.sizeOf_spec]
      omega

mutual

/-- Model of `renderPkg`: the node's own line, then its classes (filtered to
failing ones under `failuresOnly`), then its children (likewise filtered),
with the classic tree-drawing prefixes. -/
def renderPkg (pkg : TestPackageNode) (pre : String) (isLast isRoot : Bool)
    (opts : TestTreeOptions) : String :=
  match pkg with
  | .mk n _ ch cls cnts dur =>
    let branch := if isRoot then "" else if isLast then "└── " else "├── "
    let childPre := pre ++ (if isRoot then "" else if isLast then "    " else "│   ")
    let label := if isRoot then colBold ++ n ++ colReset else n
    let line := pre ++ branch ++ label ++ " (" ++ countsLabel cnts ++ ", " ++
      fmtMs dur ++ ")\n"
    let clsShow := if opts.failuresOnly then
        cls.filter (fun c => decide (0 < c.counts.failed))
      else cls
    let chShow := if opts.failuresOnly then
        ch.filter (fun c => decide (0 < c.counts.failed))
      else ch
    line ++ renderClasses clsShow chShow.isEmpty childPre opts ++
      renderChildren chShow childPre opts
termination_by sizeOf pkg
decreasing_by
  simp only [TestPackageNode.mk.sizeOf_spec]
  split
  · refine Nat.lt_of_le_of_lt (sizeOf_filter_le _ _) ?_
    omega
  · omega

/-- Children loop of `renderPkg`. -/
def renderChildren : List TestPackageNode → String → TestTreeOptions → String
  | [], _, _ => ""
  | [c], p, o => renderPkg c p true false o
  | c :: c2 :: cs, p, o => renderPkg c p false false o ++ renderChildren (c2 :: cs) p o
termination_by l _ _ => sizeOf l
decreasing_by
  all_goals simp only [List.cons.sizeOf_spec, List.nil.sizeOf_spec]
  all_goals omega

end

/- ### Failure pruning and tree membership (C7) -/

/-- Class-level effect of the `failuresOnly` rendering: when test cases are
shown, only the failed ones remain. -/
def pruneClass (it : Bool) (cl : TestClassNode) : TestClassNode :=
  if it then { cl with cases := cl.cases.filter (fun t => t.status == .failed) } else cl

mutual

/-- The subtree the `failuresOnly` rendering actually shows: classes and
children with zero failed count dropped at every level, cases filtered when
they are shown. -/
def pruneFailures (it : Bool) : TestPackageNode → TestPackageNode
  | .mk n fn ch cls cnts dur =>
    .mk n fn (pruneList it (ch.filter (fun c => decide (0 < c.counts.failed))))
      ((cls.filter (fun c => decide (0 < c.counts.failed))).map (pruneClass it))
      cnts dur
termination_by t => sizeOf t
decreasing_by
  simp only [TestPackageNode.mk.sizeOf_spec]
  refine Nat.lt_of_le_of_lt (sizeOf_filter_le _ _) ?_
  omega

/-- Children loop of `pruneFailures`. -/
def pruneList (it : Bool) : List TestPackageNode → List TestPackageNode
  | [] => []
  | t :: ts => pruneFailures it t :: pruneList it ts
termination_by l => sizeOf l
decreasing_by
  all_goals simp only [List.cons.sizeOf_spec]
  all_goals omega

end

mutual

/-- All proper descendants (children, grandchildren, ...) of a node. -/
def descendants : TestPackageNode → List TestPackageNode
  | .mk _ _ ch _ _ _ => descendantsList ch

/-- Descendants collection over a child list (each child and its own
descendants). -/
def descendantsList : List TestPackageNode → List TestPackageNode
  | [] => []
  | t :: ts => t :: (descendants t ++ descendantsList ts)

end

theorem pruneList_eq_map (it : Bool) :
    ∀ l : List TestPackageNode, pruneList it l = l.map (pruneFailures it) := by
  intro l
  induction l with
  | nil => simp [pruneList]
  | cons t ts ih => simp only [pruneList, List.map_cons, ih]

theorem pruneFailures_eq (it : Bool) (n fn : String) (ch : List TestPackageNode)
    (cls : List TestClassNode) (cnts : Counts) (dur : Int) :
    pruneFailures it (.mk n fn ch cls cnts dur) =
      .mk n fn (pruneList it (ch.filter (fun c => decide (0 < c.counts.failed))))
        ((cls.filter (fun c => decide (0 < c.counts.failed))).map (pruneClass it))
        cnts dur := by
  simp [pruneFailures]

theorem pruneFailures_counts (it : Bool) :
    ∀ t, (pruneFailures it t).counts = t.counts := by
  intro t
  cases t with
  | mk n fn ch cls cnts dur => rw [pruneFailures_eq]; rfl

theorem pruneClass_counts (it : Bool) (cl : TestClassNode) :
    (pruneClass it cl).counts = cl.counts := by
  cases it <;> simp [pruneClass]

theorem pruneClass_name (it : Bool) (cl : TestClassNode) :
    (pruneClass it cl).name = cl.name := by
  cases it <;> simp [pruneClass]

theorem pruneClass_dur (it : Bool) (cl : TestClassNode) :
    (pruneClass it cl).durationMs = cl.durationMs := by
  cases it <;> simp [pruneClass]

theorem mem_descendantsList {x : TestPackageNode} :
    ∀ {l : List TestPackageNode},
      x ∈ descendantsList l ↔ ∃ t ∈ l, x = t ∨ x ∈ descendants t := by
  intro l
  induction l with
  | nil => simp [descendantsList]
  | cons t ts ih =>
    constructor
    · intro h
      simp only [descendantsList, List.mem_cons, List.mem_append] at h
      rcases h with h | h | h
      · exact ⟨t, List.mem_cons_self t ts, Or.inl h⟩
      · exact ⟨t, List.mem_cons_self t ts, Or.inr h⟩
      · obtain ⟨t', ht', h'⟩ := ih.mp h
        exact ⟨t', List.mem_cons_of_mem t ht', h'⟩
    · rintro ⟨t', ht', h'⟩
      simp only [descendantsList, List.mem_cons, List.mem_append]
      rcases List.mem_cons.mp ht' with rfl | ht''
      · rcases h' with h' | h'
        · exact Or.inl h'
        · exact Or.inr (Or.inl h')
      · exact Or.inr (Or.inr (ih.mpr ⟨t', ht'', h'⟩))

theorem descendants_subset_of_mem {t : TestPackageNode} {l : List TestPackageNode}
    (ht : t ∈ l) : ∀ {x}, x ∈ descendants t → x ∈ descendantsList l :=
  fun hx => mem_descendantsList.mpr ⟨t, ht, Or.inr hx⟩

theorem mem_descendantsList_of_mem {t : TestPackageNode} {l : List TestPackageNode}
    (ht : t ∈ l) : t ∈ descendantsList l :=
  mem_descendantsList.mpr ⟨t, ht, Or.inl rfl⟩

theorem isEmpty_map {α β : Type _} (f : α → β) :
    ∀ l : List α, (l.map f).isEmpty = l.isEmpty := by
  intro l
  cases l <;> rfl

theorem renderClass_prune (cl : TestClassNode) (b : Bool) (p : String) (it : Bool) :
    renderClass cl b p ⟨it, true⟩ = renderClass (pruneClass it cl) b p ⟨it, false⟩ := by
  cases it with
  | false => simp [renderClass, pruneClass]
  | true => simp [renderClass, pruneClass]

theorem renderClasses_prune :
    ∀ (ls : List TestClassNode) (noCh : Bool) (p : String) (it : Bool),
      renderClasses ls noCh p ⟨it, true⟩ =
        renderClasses (ls.map (pruneClass it)) noCh p ⟨it, false⟩ := by
  intro ls
  induction ls with
  | nil =>
    intro noCh p it
    rw [List.map_nil]
    simp only [renderClasses]
  | cons cl rest ih =>
    intro noCh p it
    cases rest with
    | nil =>
      simp only [List.map_cons, List.map_nil, renderClasses]
      exact renderClass_prune cl noCh p it
    | cons cl2 cls =>
      simp only [List.map_cons, renderClasses]
      rw [renderClass_prune cl false p it]
      have h2 := ih noCh p it
      simp only [List.map_cons] at h2
      rw [h2]

theorem renderChildren_prune :
    ∀ (ls : List TestPackageNode) (p : String) (it : Bool),
      (∀ c ∈ ls, ∀ (pre : String) (l r : Bool),
        renderPkg c pre l r ⟨it, true⟩ =
          renderPkg (pruneFailures it c) pre l r ⟨it, false⟩) →
      renderChildren ls p ⟨it, true⟩ =
        renderChildren (pruneList it ls) p ⟨it, false⟩ := by
  intro ls
  induction ls with
  | nil =>
    intro p it _
    rw [pruneList_eq_map, List.map_nil]
    simp only [renderChildren]
  | cons c rest ih =>
    intro p it hall
    cases rest with
    | nil =>
      rw [pruneList_eq_map]
      simp only [List.map_cons, List.map_nil, renderChildren]
      exact hall c (List.mem_cons_self _ _) p true false
    | cons c2 cs =>
      rw [pruneList_eq_map]
      simp only [List.map_cons, renderChildren]
      rw [hall c (List.mem_cons_self _ _) p false false]
      have h2 := ih p it (fun c' hc' => hall c' (List.mem_cons_of_mem c hc'))
      rw [pruneList_eq_map] at h2
      simp only [List.map_cons] at h2
      rw [h2]

theorem renderPkg_prune :
    ∀ (t : TestPackageNode) (pre : String) (isLast isRoot it : Bool),
      renderPkg t pre isLast isRoot ⟨it, true⟩ =
        renderPkg (pruneFailures it t) pre isLast isRoot ⟨it, false⟩ := by
  intro t
  induction t using TestPackageNode.testIndOn with
  | step n fn ch cls cnts dur ih =>
    intro pre isLast isRoot it
    rw [pruneFailures_eq]
    simp only [renderPkg, if_true, Bool.false_eq_true, if_false]
    have hie : (pruneList it (ch.filter (fun c => decide (0 < c.counts.failed)))).isEmpty
        = (ch.filter (fun c => decide (0 < c.counts.failed))).isEmpty := by
      rw [pruneList_eq_map, isEmpty_map]
    rw [hie]
    have hcl := renderClasses_prune (cls.filter (fun c => decide (0 < c.counts.failed)))
      ((ch.filter (fun c => decide (0 < c.counts.failed))).isEmpty)
      (pre ++ (if isRoot then "" else if isLast then "    " else "│   ")) it
    have hch := renderChildren_prune (ch.filter (fun c => decide (0 < c.counts.failed)))
      (pre ++ (if isRoot then "" else if isLast then "    " else "│   ")) it
      (fun c hc pre' l r => ih c (List.mem_of_mem_filter hc) pre' l r it)
    rw [← hcl, ← hch]

theorem Counts.add_failed (a b : Counts) :
    (Counts.add a b).failed = a.failed + b.failed := rfl

theorem failed_le_countsSum :
    ∀ (l : List Counts), ∀ x ∈ l, x.failed ≤ (countsSum l).failed := by
  intro l
  induction l with
  | nil => intro x hx; cases hx
  | cons c cs ih =>
    intro x hx
    rcases List.mem_cons.mp hx with rfl | hx'
    · show x.failed ≤ (Counts.add x (countsSum cs)).failed
      rw [Counts.add_failed]
      omega
    · have h1 := ih x hx'
      show x.failed ≤ (Counts.add c (countsSum cs)).failed
      rw [Counts.add_failed]
      omega

theorem agg_failed_le :
    ∀ t, aggOKb t = true →
      ∀ u ∈ descendants t, u.counts.failed ≤ t.counts.failed := by
  intro t
  induction t using TestPackageNode.testIndOn with
  | step n fn ch cls cnts dur ih =>
    intro hok u hu
    simp only [aggOKb, Bool.and_eq_true, decide_eq_true_eq] at hok
    obtain ⟨⟨⟨_, hcnts⟩, _⟩, hchok⟩ := hok
    rw [aggOKbList_eq_all, List.all_eq_true] at hchok
    simp only [descendants] at hu
    rw [mem_descendantsList] at hu
    obtain ⟨c, hc, hcase⟩ := hu
    have hcle : c.counts.failed ≤ cnts.failed := by
      have h1 : c.counts ∈ ch.map TestPackageNode.counts :=
        List.mem_map_of_mem TestPackageNode.counts hc
      have h2 := failed_le_countsSum _ _ h1
      rw [hcnts, Counts.add_failed]
      omega
    show u.counts.failed ≤ cnts.failed
    rcases hcase with rfl | hdesc
    · exact hcle
    · have h3 := ih c hc (hchok c hc) u hdesc
      omega

theorem prune_descendants_failed :
    ∀ (t : TestPackageNode) (it : Bool),
      ∀ d ∈ descendants (pruneFailures it t), 0 < d.counts.failed := by
  intro t
  induction t using TestPackageNode.testIndOn with
  | step n fn ch cls cnts dur ih =>
    intro it d hd
    rw [pruneFailures_eq] at hd
    simp only [descendants] at hd
    rw [mem_descendantsList] at hd
    obtain ⟨t', ht', hcase⟩ := hd
    rw [pruneList_eq_map] at ht'
    obtain ⟨c, hc, rfl⟩ := List.mem_map.mp ht'
    have hcf : 0 < c.counts.failed := by
      have := List.of_mem_filter hc
      simpa using this
    rcases hcase with rfl | hdesc
    · rw [pruneFailures_counts]
      exact hcf
    · exact ih c (List.mem_of_mem_filter hc) it d hdesc

theorem prune_classes_failed :
    ∀ (t : TestPackageNode) (it : Bool),
      ∀ d ∈ pruneFailures it t :: descendants (pruneFailures it t),
        ∀ cl ∈ d.classes, 0 < cl.counts.failed ∧
          (it = true → ∀ tc ∈ cl.cases, tc.status = .failed) := by
  intro t
  induction t using TestPackageNode.testIndOn with
  | step n fn ch cls cnts dur ih =>
    intro it d hd cl hcl
    rcases List.mem_cons.mp hd with rfl | hdesc
    · rw [pruneFailures_eq] at hcl
      simp only [TestPackageNode.classes] at hcl
      obtain ⟨cl0, hcl0, rfl⟩ := List.mem_map.mp hcl
      have hf : 0 < cl0.counts.failed := by
        have := List.of_mem_filter hcl0
        simpa using this
      refine ⟨by rw [pruneClass_counts]; exact hf, ?_⟩
      intro hit tc htc
      subst hit
      simp only [pruneClass, if_pos rfl] at htc
      have := List.of_mem_filter htc
      simpa using this
    · rw [pruneFailures_eq] at hdesc
      simp only [descendants] at hdesc
      rw [mem_descendantsList] at hdesc
      obtain ⟨t', ht', hcase⟩ := hdesc
      rw [pruneList_eq_map] at ht'
      obtain ⟨c, hc, rfl⟩ := List.mem_map.mp ht'
      have hcm := List.mem_of_mem_filter hc
      rcases hcase with rfl | hdesc'
      · exact ih c hcm it _ (List.mem_cons_self _ _) cl hcl
      · exact ih c hcm it d
          (List.mem_cons_of_mem _ hdesc') cl hcl

theorem prune_keeps_failing :
    ∀ (t : TestPackageNode) (it : Bool) (u : TestPackageNode),
      aggOKb t = true → u ∈ descendants t → 0 < u.counts.failed →
      pruneFailures it u ∈ descendants (pruneFailures it t) := by
  intro t
  induction t using TestPackageNode.testIndOn with
  | step n fn ch cls cnts dur ih =>
    intro it u hok hu huf
    simp only [aggOKb, Bool.and_eq_true, decide_eq_true_eq] at hok
    obtain ⟨⟨⟨_, _⟩, _⟩, hchok⟩ := hok
    rw [aggOKbList_eq_all, List.all_eq_true] at hchok
    simp only [descendants] at hu
    rw [mem_descendantsList] at hu
    obtain ⟨c, hc, hcase⟩ := hu
    rw [pruneFailures_eq]
    simp only [descendants]
    rcases hcase with rfl | hdesc
    · apply mem_descendantsList_of_mem
      rw [pruneList_eq_map]
      apply List.mem_map_of_mem
      rw [List.mem_filter]
      exact ⟨hc, by simpa using huf⟩
    · have hcf : 0 < c.counts.failed := by
        have h1 := agg_failed_le c (hchok c hc) u hdesc
        omega
      have hcmem : pruneFailures it c ∈
          pruneList it (ch.filter (fun c => decide (0 < c.counts.failed))) := by
        rw [pruneList_eq_map]
        apply List.mem_map_of_mem
        rw [List.mem_filter]
        exact ⟨hc, by simpa using hcf⟩
      exact descendants_subset_of_mem hcmem (ih c hc it u (hchok c hc) hdesc huf)

/-- C7: rendering an outcome tree with failuresOnly = true is exactly rendering
the pruned tree (every package child, class, and — when includeTests — case with
zero failed count removed, recursively): (1) the rendered string with
failuresOnly on equals the plain rendering of `pruneFailures` of the tree;
(2) every strict descendant package of the pruned tree has failed > 0;
(3) every class kept anywhere in the pruned tree has failed > 0, and when test
cases are shown every kept case has status failed; (4) under correct
aggregation, every descendant with failed > 0 survives pruning — its own
pruned form appears among the pruned tree's descendants, so the full ancestor
chain to a failing leaf is still rendered. -/
theorem renderPkg_failuresOnly :
    (∀ (t : TestPackageNode) (pre : String) (isLast isRoot it : Bool),
      renderPkg t pre isLast isRoot ⟨it, true⟩ =
        renderPkg (pruneFailures it t) pre isLast isRoot ⟨it, false⟩) ∧
    (∀ (t : TestPackageNode) (it : Bool),
      ∀ d ∈ descendants (pruneFailures it t), 0 < d.counts.failed) ∧
    (∀ (t : TestPackageNode) (it : Bool),
      ∀ d ∈ pruneFailures it t :: descendants (pruneFailures it t),
        ∀ cl ∈ d.classes, 0 < cl.counts.failed ∧
          (it = true → ∀ tc ∈ cl.cases, tc.status = .failed)) ∧
    (∀ (t : TestPackageNode) (it : Bool) (u : TestPackageNode),
      aggOKb t = true → u ∈ descendants t → 0 < u.counts.failed →
      pruneFailures it u ∈ descendants (pruneFailures it t)) :=
  ⟨renderPkg_prune, prune_descendants_failed, prune_classes_failed, prune_keeps_failing⟩
